import Mathlib

/-!
Verification development for the Cascades-style query optimizer memo
(`src/mongo/db/query/optimizer/cascades/memo.h`).

The repository provides only the header (declarations and data-member layout);
the function bodies live in `memo.cpp`, which is not part of the repository
snapshot.  Consequently the operational definitions below are modelled from the
specification (spec.md sections 3, 4.1 - 4.4, 7, 8) and from the data members
and comments that the header does declare.  Machine integers (`size_t`,
`GroupIdType`) are modelled as `Nat` (with `Int` where the source uses a signed
sentinel); `boost::optional` as `Option`; owned vectors as `List`; hash maps as
association lists whose lookup respects the C++ key-equality relation.
-/

namespace Cascades

/-- Identifier of a logical node inside the memo: a (group id, index in the
group's logical node set) pair.  Mirrors `MemoLogicalNodeId`. -/
structure MemoLogicalNodeId where
  groupId : Nat
  index : Nat
deriving DecidableEq, Repr

/-- A logical node as stored inside a memo group: its operator/payload tag and
its children, which are already resolved to memo group ids (the header stores
`ABT` nodes whose children are `MemoLogicalDelegatorNode` references to
groups).  Structural equality of stored nodes (the `MemoNodeRefCompare`
relation) is value equality of this structure. -/
structure MemoNode where
  op : Nat
  children : List Nat
deriving DecidableEq, Repr

/-- An input expression tree submitted to `Memo::integrate`: an operator tag
together with child subtrees (an `ABT` before memo residency). -/
inductive ABT : Type where
  | node : Nat → List ABT → ABT

/-- Lookup in an association list by decidable key equality (models lookup in
`opt::unordered_map`; the first entry with the key wins). -/
def assocLookup {α β : Type} [DecidableEq α] : List (α × β) → α → Option β
  | [], _ => none
  | (k, v) :: rest, key => if k = key then some v else assocLookup rest key

/-- Overwrite-or-append insertion into an association list (models
`map[key] = value` on `opt::unordered_map`). -/
def assocInsert {α β : Type} [DecidableEq α] : List (α × β) → α → β → List (α × β)
  | [], key, v => [(key, v)]
  | (k, w) :: rest, key, v =>
    if k = key then (k, v) :: rest else (k, w) :: assocInsert rest key v

/-- Lookup in an association list by an arbitrary boolean key-equivalence
(models `opt::unordered_map` keyed by a value type whose `operator==` is not
syntactic equality of the representation). -/
def assocFindBy {α β : Type} (eqv : α → α → Bool) : List (α × β) → α → Option β
  | [], _ => none
  | (k, v) :: rest, key => if eqv k key then some v else assocFindBy eqv rest key

/-- Index of the first occurrence of a node in a list, by structural
equality; `none` if absent.  Helper for `OrderPreservingABTSet`. -/
def findIdxOf (n : MemoNode) : List MemoNode → Option Nat
  | [] => none
  | x :: xs => if x = n then some 0 else (findIdxOf n xs).map (· + 1)

/-- Modelled from the spec: `OrderPreservingABTSet` (memo.h lines 54-72; the
member function bodies are in memo.cpp, absent from the snapshot).  Owns a
growable ordered sequence of structurally distinct nodes; the header's `_map`
member is a hash index over the same contents used to accelerate lookup, so the
semantic state is the ordered vector alone. -/
structure OrderPreservingABTSet where
  vector : List MemoNode
deriving DecidableEq, Repr

/-- Modelled from the spec: `OrderPreservingABTSet::at` (bounds-checked access;
out-of-range access is a contract violation, modelled as `none`). -/
def OrderPreservingABTSet.at? (s : OrderPreservingABTSet) (i : Nat) : Option MemoNode :=
  s.vector[i]?

/-- Modelled from the spec: `OrderPreservingABTSet::find` — lookup without
insertion; returns the stable index and whether the node was found. -/
def OrderPreservingABTSet.find (s : OrderPreservingABTSet) (n : MemoNode) : Nat × Bool :=
  match findIdxOf n s.vector with
  | some i => (i, true)
  | none => (0, false)

/-- Modelled from the spec: `OrderPreservingABTSet::emplace_back` — returns the
node's stable index and whether it was newly inserted, deciding duplication by
structural equality against all existing entries; a structural duplicate leaves
the set unchanged, a new node is appended at the end. -/
def OrderPreservingABTSet.emplace_back (s : OrderPreservingABTSet) (n : MemoNode) :
    OrderPreservingABTSet × Nat × Bool :=
  match findIdxOf n s.vector with
  | some i => (s, i, false)
  | none => (⟨s.vector ++ [n]⟩, s.vector.length, true)

/-- Modelled from the spec: `OrderPreservingABTSet::clear`. -/
def OrderPreservingABTSet.clear (_s : OrderPreservingABTSet) : OrderPreservingABTSet :=
  ⟨[]⟩

/-- Modelled from the spec: `OrderPreservingABTSet::size`. -/
def OrderPreservingABTSet.size (s : OrderPreservingABTSet) : Nat :=
  s.vector.length

/-- Modelled from the spec: `OrderPreservingABTSet::getVector`. -/
def OrderPreservingABTSet.getVector (s : OrderPreservingABTSet) : List MemoNode :=
  s.vector

/-- Sequential insertion of a list of nodes via `emplace_back` (the usage
pattern of the order-preservation property in spec section 8). -/
def OrderPreservingABTSet.emplaceAll (s : OrderPreservingABTSet) (ns : List MemoNode) :
    OrderPreservingABTSet :=
  ns.foldl (fun acc n => (acc.emplace_back n).1) s

/-- A requested physical property set (`properties::PhysProps`): a finite map
from property kind to property value, modelled as an association list.  The C++
value is a map keyed by property kind, so its `operator==` is order-independent
and value-exact; `propsEqv` below is that relation. -/
abbrev PhysProps := List (Nat × Nat)

/-- Equality of physical property sets as the C++ map `operator==` decides it:
every property of one set is present with the same value in the other, in both
directions (order-independent within the set, value-exact per property). -/
def propsEqv (a b : PhysProps) : Bool :=
  a.all (fun kv => decide (assocLookup b kv.1 = some kv.2)) &&
    b.all (fun kv => decide (assocLookup a kv.1 = some kv.2))

/-- `PhysNodeInfo` (memo.h lines 74-89): a winning or rejected physical plan
with its subtree cost, local cost, display cardinality and producing rule.
Costs (`CostType`) are modelled as `Nat`. -/
structure PhysNodeInfo where
  node : MemoNode
  cost : Nat
  localCost : Nat
  adjustedCE : Nat
  rule : Nat
deriving DecidableEq, Repr

/-- `PhysOptimizationResult` (memo.h lines 91-111): one optimization attempt of
a group under a requested physical property set.  `_nodeInfo` is the winner
("If set, we have successfully optimized", memo.h line 102); `_queue` holds
pending physical rewrite tasks (modelled as opaque task tags). -/
structure PhysOptimizationResult where
  index : Nat
  physProps : PhysProps
  costLimit : Nat
  nodeInfo : Option PhysNodeInfo
  rejectedNodeInfo : List PhysNodeInfo
  lastImplementedNodePos : Nat
  queue : List Nat
deriving DecidableEq, Repr

/-- Modelled from the spec: the `PhysOptimizationResult(index, physProps,
costLimit)` constructor — a freshly created result starts with no winner, no
rejected plans, position zero and an empty queue. -/
def mkPhysOptimizationResult (index : Nat) (physProps : PhysProps) (costLimit : Nat) :
    PhysOptimizationResult :=
  { index := index
    physProps := physProps
    costLimit := costLimit
    nodeInfo := none
    rejectedNodeInfo := []
    lastImplementedNodePos := 0
    queue := [] }

/-- Modelled from the spec: `PhysOptimizationResult::isOptimized` — whether a
winner has been recorded (memo.h line 102: "If set, we have successfully
optimized"). -/
def PhysOptimizationResult.isOptimized (r : PhysOptimizationResult) : Bool :=
  r.nodeInfo.isSome

/-- Modelled from the spec: `PhysOptimizationResult::raiseCostLimit` — the cost
limit may only be raised, never lowered (spec sections 3 and 9: a single
mutable field whose new value is never lower than the old value). -/
def PhysOptimizationResult.raiseCostLimit (r : PhysOptimizationResult) (costLimit : Nat) :
    PhysOptimizationResult :=
  { r with costLimit := max r.costLimit costLimit }

/-- Modelled from the spec: winner replacement protocol for an optimization
result (spec section 3 invariants: "once a winner exists, a later call only
replaces it with an equal-or-cheaper plan"; the replacement code itself lives
in the physical rewriter, outside the snapshot).  A candidate below the current
winner's cost (or below the cost limit when there is no winner yet) becomes the
winner; any other candidate is added to the rejected list. -/
def PhysOptimizationResult.checkAndSetWinner (r : PhysOptimizationResult)
    (info : PhysNodeInfo) : PhysOptimizationResult :=
  match r.nodeInfo with
  | none =>
    if info.cost ≤ r.costLimit then { r with nodeInfo := some info }
    else { r with rejectedNodeInfo := r.rejectedNodeInfo ++ [info] }
  | some cur =>
    if info.cost ≤ cur.cost then
      { r with nodeInfo := some info, rejectedNodeInfo := r.rejectedNodeInfo ++ [cur] }
    else { r with rejectedNodeInfo := r.rejectedNodeInfo ++ [info] }

/-- `PhysNodes` (memo.h lines 113-137): the winner's circle of a group — the
list of optimization results plus the property-set → index lookup map. -/
structure PhysNodes where
  physicalNodes : List PhysOptimizationResult
  physPropsToPhysNodeMap : List (PhysProps × Nat)
deriving DecidableEq, Repr

/-- Modelled from the spec: `PhysNodes::find` — pure lookup of the result index
for a structurally equal (order-independent, value-exact) property set. -/
def PhysNodes.find (pn : PhysNodes) (props : PhysProps) : Nat × Bool :=
  match assocFindBy propsEqv pn.physPropsToPhysNodeMap props with
  | some i => (i, true)
  | none => (0, false)

/-- Modelled from the spec: `PhysNodes::at` (bounds-checked, modelled as
`none` out of range). -/
def PhysNodes.at? (pn : PhysNodes) (i : Nat) : Option PhysOptimizationResult :=
  pn.physicalNodes[i]?

/-- Modelled from the spec: `PhysNodes::addOptimizationResult` — returns the
existing result's index when one exists for an equal property set, otherwise
creates a fresh result (no winner yet) at the next index and registers it in
the property → index map. -/
def PhysNodes.addOptimizationResult (pn : PhysNodes) (props : PhysProps) (costLimit : Nat) :
    PhysNodes × Nat :=
  match pn.find props with
  | (i, true) => (pn, i)
  | (_, false) =>
    let idx := pn.physicalNodes.length
    ({ physicalNodes := pn.physicalNodes ++ [mkPhysOptimizationResult idx props costLimit]
       physPropsToPhysNodeMap := pn.physPropsToPhysNodeMap ++ [(props, idx)] }, idx)

/-- `Group` (memo.h lines 139-159): an equivalence class of logical
alternatives with per-node producing rules, lazily derived logical properties
(modelled by their cardinality output, `none` until derived), the binder
describing the group's output projection names, the pending logical rewrite
queue (opaque task tags) and the physical winner's circle. -/
structure Group where
  logicalNodes : OrderPreservingABTSet
  rules : List Nat
  logicalProperties : Option Nat
  binder : List Nat
  logicalRewriteQueue : List Nat
  physicalNodes : PhysNodes
deriving DecidableEq, Repr

/-- Modelled from the spec: the `Group(ProjectionNameSet)` constructor — a
group is created empty, with its projection set fixed for its lifetime. -/
def mkGroup (projections : List Nat) : Group :=
  { logicalNodes := ⟨[]⟩
    rules := []
    logicalProperties := none
    binder := projections
    logicalRewriteQueue := []
    physicalNodes := ⟨[], []⟩ }

/-- `Memo::Stats` (memo.h lines 188-195): diagnostic counters, never
correctness-relevant. -/
structure Stats where
  numIntegrations : Nat
  physPlanExplorationCount : Nat
  physMemoCheckCount : Nat
deriving DecidableEq, Repr

/-- `Memo::Context` (memo.h lines 175-186): the parameter pack of external
interfaces.  For logical-property derivation only the cardinality-estimation
outcome matters to the memo, so the pack is modelled by one pure derivation
function from a group's logical node vector to its estimated cardinality (the
spec requires the supplied interfaces to be synchronous and side-effect-free
with respect to the memo). -/
structure Context where
  ceDerive : List MemoNode → Nat

/-- `Memo` (memo.h lines 164-269): the owned list of groups, the map from
input group vectors to the node ids produced from exactly those inputs, its
inverse, and the diagnostic counters. -/
structure Memo where
  groups : List Group
  inputGroupsToNodeIdMap : List (List Nat × List MemoLogicalNodeId)
  nodeIdToInputGroupsMap : List (MemoLogicalNodeId × List Nat)
  stats : Stats

/-- A freshly constructed memo (`Memo() = default`). -/
def Memo.empty : Memo :=
  { groups := []
    inputGroupsToNodeIdMap := []
    nodeIdToInputGroupsMap := []
    stats := ⟨0, 0, 0⟩ }

/-- `Memo::getGroupCount`. -/
def Memo.getGroupCount (m : Memo) : Nat :=
  m.groups.length

/-- Total number of logical nodes across all groups (`Memo::getLogicalNodeCount`). -/
def Memo.getLogicalNodeCount (m : Memo) : Nat :=
  (m.groups.map (fun g => g.logicalNodes.size)).sum

/-- Total number of physical optimization results across all groups
(`Memo::getPhysicalNodeCount`). -/
def Memo.getPhysicalNodeCount (m : Memo) : Nat :=
  (m.groups.map (fun g => g.physicalNodes.physicalNodes.length)).sum

/-- `Memo::getNode`: the stored logical node a memo node id refers to
(out-of-range ids are a contract violation, modelled as `none`). -/
def Memo.getNode (m : Memo) (id : MemoLogicalNodeId) : Option MemoNode :=
  match m.groups[id.groupId]? with
  | none => none
  | some g => g.logicalNodes.at? id.index

/-- The set of node ids recorded as directly produced from exactly the given
ordered vector of input group ids (one entry of `_inputGroupsToNodeIdMap`,
empty when the vector has no entry). -/
def Memo.entryList (m : Memo) (key : List Nat) : List MemoLogicalNodeId :=
  (assocLookup m.inputGroupsToNodeIdMap key).getD []

/-- Modelled from the spec: `Memo::findNode` (declared memo.h line 259) —
among the node ids recorded for the given input group vector, the first whose
stored node is structurally equal to the candidate. -/
def Memo.findNode (m : Memo) (groups : List Nat) (n : MemoNode) : Option MemoLogicalNodeId :=
  (m.entryList groups).find? (fun id => decide (m.getNode id = some n))

/-- `Memo::findNodeInGroup`: lookup of a node inside one group's set. -/
def Memo.findNodeInGroup (m : Memo) (groupId : Nat) (n : MemoNode) : Nat × Bool :=
  match m.groups[groupId]? with
  | none => (0, false)
  | some g => g.logicalNodes.find n

/-- Modelled from the spec: `Memo::addGroup` (declared memo.h line 255) —
appends a fresh group with the given projection set; group ids are indices
into the owned list and are never reused. -/
def Memo.addGroup (m : Memo) (projections : List Nat) : Memo × Nat :=
  ({ m with groups := m.groups ++ [mkGroup projections] }, m.groups.length)

/-- Replace the group at an index (helper for in-place group mutation). -/
def Memo.updateGroup (m : Memo) (gid : Nat) (g : Group) : Memo :=
  { m with groups := m.groups.set gid g }

/-- Modelled from the spec: the private `Memo::addNode(groupId, n, rule)`
(declared memo.h line 257) — delegates insertion to the target group's
`OrderPreservingABTSet`; on a structural duplicate the memo is unchanged and
the duplicate's id is returned, otherwise the node is appended and its
producing rule recorded. -/
def Memo.addNodeToGroup (m : Memo) (gid : Nat) (n : MemoNode) (rule : Nat) :
    Memo × MemoLogicalNodeId × Bool :=
  match m.groups[gid]? with
  | none => (m, ⟨gid, 0⟩, false)
  | some g =>
    let r := g.logicalNodes.emplace_back n
    if r.2.2 then
      (m.updateGroup gid { g with logicalNodes := r.1, rules := g.rules ++ [rule] },
        ⟨gid, r.2.1⟩, true)
    else
      (m, ⟨gid, r.2.1⟩, false)

/-- Modelled from the spec: `Memo::estimateCE` (declared memo.h line 227) —
recomputes the group's logical properties from its current logical node set
via the supplied derivation interfaces. -/
def Memo.estimateCE (ctx : Context) (m : Memo) (gid : Nat) : Memo :=
  match m.groups[gid]? with
  | none => m
  | some g =>
    m.updateGroup gid { g with logicalProperties := some (ctx.ceDerive g.logicalNodes.vector) }

/-- Add a node id to the entry of an input group vector, creating the entry if
the vector is new (models `_inputGroupsToNodeIdMap[groupVector].insert(id)`;
the C++ codomain is a set, so an already-present id is not duplicated). -/
def insertToEntry :
    List (List Nat × List MemoLogicalNodeId) → List Nat → MemoLogicalNodeId →
      List (List Nat × List MemoLogicalNodeId)
  | [], key, id => [(key, [id])]
  | (k, ids) :: rest, key, id =>
    if k = key then (k, if id ∈ ids then ids else ids ++ [id]) :: rest
    else (k, ids) :: insertToEntry rest key id

/-- Modelled from the spec: the public `Memo::addNode` (memo.h lines 229-235)
— resolves the target group (a negative target id requests a fresh group with
the supplied projections), inserts the node into that group, and, exactly when
the node was newly created, records it in the caller's inserted-node-id set,
registers the (input group vector → node id) mapping and its inverse, and
re-derives the group's logical properties. -/
def Memo.addNode (ctx : Context) (m : Memo) (groupVector : List Nat)
    (projections : List Nat) (targetGroupId : Int) (insertedNodeIds : List MemoLogicalNodeId)
    (n : MemoNode) (rule : Nat) : Memo × MemoLogicalNodeId × List MemoLogicalNodeId :=
  let p := if targetGroupId < 0 then m.addGroup projections else (m, targetGroupId.toNat)
  let r := p.1.addNodeToGroup p.2 n rule
  if r.2.2 then
    let m3 : Memo :=
      { r.1 with
        inputGroupsToNodeIdMap := insertToEntry r.1.inputGroupsToNodeIdMap groupVector r.2.1
        nodeIdToInputGroupsMap := assocInsert r.1.nodeIdToInputGroupsMap r.2.1 groupVector }
    (Memo.estimateCE ctx m3 p.2, r.2.1, insertedNodeIds ++ [r.2.1])
  else
    (r.1, r.2.1, insertedNodeIds)

/-- Modelled from the spec: projection set of a fresh group, derived from the
node that creates it (spec section 4.4 step 3: "a freshly allocated group ...
whose projection set is derived from the node's output"). -/
def MemoNode.projections (n : MemoNode) : List Nat :=
  [n.op]

/-- Modelled from the spec: the per-node step of `Memo::integrate` (spec
section 4.4, steps 2-4), applied after the children have been integrated:
`rc` carries the memo and inserted-id set produced by integrating the
children together with the resolved child group ids.  The candidate node over
those child groups is reused when a structurally equal node is already
recorded for exactly that input vector (unless `addExistingNodeWithNewChild`
requests re-insertion); otherwise it is inserted via the public `addNode`
into the group requested by the target group map, or the group of the found
node, or a fresh group. -/
def integrateStep (ctx : Context) (tgm : ABT → Option Nat) (rule : Nat) (aenwc : Bool)
    (t0 : ABT) (op : Nat) (rc : Memo × List MemoLogicalNodeId × List Nat) :
    Memo × List MemoLogicalNodeId × MemoLogicalNodeId :=
  let n : MemoNode := ⟨op, rc.2.2⟩
  match rc.1.findNode rc.2.2 n, aenwc with
  | some id, false => (rc.1, rc.2.1, id)
  | found, _ =>
    let target : Int :=
      match tgm t0 with
      | some g => (g : Int)
      | none =>
        match found with
        | some id => (id.groupId : Int)
        | none => -1
    let ra := Memo.addNode ctx rc.1 rc.2.2 n.projections target rc.2.1 n rule
    (ra.1, ra.2.2, ra.2.1)

mutual

/-- Modelled from the spec: the recursive integration of `Memo::integrate`
(spec section 4.4): children are integrated bottom-up so each child resolves
to a group id, then the node itself is deduplicated or inserted by
`integrateStep`. -/
def integrateTree (ctx : Context) (tgm : ABT → Option Nat) (rule : Nat) (aenwc : Bool) :
    Memo → List MemoLogicalNodeId → ABT → Memo × List MemoLogicalNodeId × MemoLogicalNodeId
  | m, ins, .node op cs =>
    integrateStep ctx tgm rule aenwc (.node op cs) op
      (integrateList ctx tgm rule aenwc m ins cs)

/-- Modelled from the spec: left-to-right integration of a child list,
threading the memo and the inserted-node-id set, yielding the resolved child
group ids in order. -/
def integrateList (ctx : Context) (tgm : ABT → Option Nat) (rule : Nat) (aenwc : Bool) :
    Memo → List MemoLogicalNodeId → List ABT → Memo × List MemoLogicalNodeId × List Nat
  | m, ins, [] => (m, ins, [])
  | m, ins, c :: cs =>
    let r1 := integrateTree ctx tgm rule aenwc m ins c
    let r2 := integrateList ctx tgm rule aenwc r1.1 r1.2.1 cs
    (r2.1, r2.2.1, r1.2.2.groupId :: r2.2.2)

end

/-- Modelled from the spec: `Memo::integrate` (memo.h lines 237-242) — bumps
the integration counter and integrates the tree bottom-up; the returned node
id identifies the root's node, whose `groupId` is the root group id the C++
function returns. -/
def Memo.integrate (ctx : Context) (m : Memo) (t : ABT) (tgm : ABT → Option Nat)
    (insertedNodeIds : List MemoLogicalNodeId) (rule : Nat) (aenwc : Bool) :
    Memo × List MemoLogicalNodeId × MemoLogicalNodeId :=
  integrateTree ctx tgm rule aenwc
    { m with stats := { m.stats with numIntegrations := m.stats.numIntegrations + 1 } }
    insertedNodeIds t

/-- Modelled from the spec: `Memo::clearLogicalNodes` (memo.h line 244) —
discards the group's logical alternatives (and their producing rules and
pending logical rewrites) while leaving the group's id, binder, derived
properties and physical winners intact. -/
def Memo.clearLogicalNodes (m : Memo) (gid : Nat) : Memo :=
  match m.groups[gid]? with
  | none => m
  | some g =>
    m.updateGroup gid { g with logicalNodes := ⟨[]⟩, rules := [], logicalRewriteQueue := [] }

/-- Modelled from the spec: `Memo::clear` (memo.h line 248) — resets the
entire memo between independent optimization runs. -/
def Memo.clear (_m : Memo) : Memo :=
  Memo.empty

/-- Growth relation between memo states: every stored node keeps its id and
content, every input-vector entry list only gains members at its end, and the
group list never shrinks (group ids stay valid and keep their content). -/
def Memo.Le (m m' : Memo) : Prop :=
  (∀ id n, m.getNode id = some n → m'.getNode id = some n) ∧
  (∀ key, ∃ s, m'.entryList key = m.entryList key ++ s) ∧
  m.groups.length ≤ m'.groups.length

/-- Well-formedness of the memo's auxiliary maps relative to its stored
nodes.  It holds for the empty memo and is preserved by default-target
integration: every recorded node id is valid and recorded under exactly its
node's child group vector, the node contents recorded for one input vector
are pairwise structurally distinct, the forward map and its inverse agree,
and both maps have no duplicate keys. -/
structure Memo.WF (m : Memo) : Prop where
  entriesValid : ∀ key id, id ∈ m.entryList key →
    ∃ n, m.getNode id = some n ∧ n.children = key
  entriesPairwise : ∀ key,
    (m.entryList key).Pairwise (fun a b => m.getNode a ≠ m.getNode b)
  fwdInvAgree : ∀ key id,
    id ∈ m.entryList key ↔ assocLookup m.nodeIdToInputGroupsMap id = some key
  fwdKeysNodup : (m.inputGroupsToNodeIdMap.map Prod.fst).Nodup
  invKeysNodup : (m.nodeIdToInputGroupsMap.map Prod.fst).Nodup

mutual

/-- A tree is resident in a memo at a node id when its children are resident
at groups `gids` (in order) and a structurally equal node over exactly those
input groups is recorded and found by `findNode`. -/
inductive Resident : Memo → ABT → MemoLogicalNodeId → Prop where
  | node : ∀ (m : Memo) (op : Nat) (cs : List ABT) (gids : List Nat)
      (id : MemoLogicalNodeId),
      ResidentList m cs gids →
      m.findNode gids ⟨op, gids⟩ = some id →
      Resident m (.node op cs) id

/-- Pointwise residency of a child list at a group id vector. -/
inductive ResidentList : Memo → List ABT → List Nat → Prop where
  | nil : ∀ m, ResidentList m [] []
  | cons : ∀ (m : Memo) (c : ABT) (cid : MemoLogicalNodeId) (cs : List ABT)
      (gids : List Nat),
      Resident m c cid →
      ResidentList m cs gids →
      ResidentList m (c :: cs) (cid.groupId :: gids)

end

/-- Strong induction on expression trees: to prove a property of every tree
it suffices to prove it for a node assuming it for every child. -/
def ABT.strongInductionOn {P : ABT → Prop}
    (h : ∀ op cs, (∀ c ∈ cs, P c) → P (ABT.node op cs)) : ∀ t, P t
  | .node op cs => h op cs (fun c hc => ABT.strongInductionOn h c)
termination_by t => sizeOf t
decreasing_by
  simp_wf
  have := List.sizeOf_lt_of_mem hc
  omega

/-! ### Helper lemmas about the list-level primitives -/

theorem findIdxOf_eq_none_iff (n : MemoNode) (l : List MemoNode) :
    findIdxOf n l = none ↔ n ∉ l := by
  induction l with
  | nil => simp [findIdxOf]
  | cons x xs ih =>
    by_cases hx : x = n
    · subst hx
      simp [findIdxOf]
    · simp only [findIdxOf, if_neg hx, List.mem_cons, Option.map_eq_none']
      rw [ih]
      constructor
      · intro h hc
        rcases hc with hc | hc
        · exact hx hc.symm
        · exact h hc
      · intro h hc
        exact h (Or.inr hc)

theorem findIdxOf_some_get (n : MemoNode) (l : List MemoNode) (i : Nat)
    (h : findIdxOf n l = some i) : l[i]? = some n := by
  induction l generalizing i with
  | nil => simp [findIdxOf] at h
  | cons x xs ih =>
    by_cases hx : x = n
    · subst hx
      rw [findIdxOf, if_pos rfl] at h
      injection h with h
      subst h
      simp
    · simp only [findIdxOf, if_neg hx] at h
      cases h2 : findIdxOf n xs with
      | none => rw [h2] at h; simp at h
      | some j =>
        rw [h2] at h
        simp only [Option.map_some', Option.some.injEq] at h
        subst h
        simpa using ih j h2

theorem findIdxOf_lt_length (n : MemoNode) (l : List MemoNode) (i : Nat)
    (h : findIdxOf n l = some i) : i < l.length := by
  by_contra hge
  have h1 := findIdxOf_some_get n l i h
  rw [List.getElem?_eq_none (Nat.le_of_not_lt hge)] at h1
  exact Option.noConfusion h1

theorem emplace_back_not_mem (s : OrderPreservingABTSet) (n : MemoNode)
    (h : n ∉ s.vector) : s.emplace_back n = (⟨s.vector ++ [n]⟩, s.vector.length, true) := by
  rw [OrderPreservingABTSet.emplace_back, (findIdxOf_eq_none_iff n s.vector).mpr h]

theorem emplace_back_mem (s : OrderPreservingABTSet) (n : MemoNode) (i : Nat)
    (h : findIdxOf n s.vector = some i) : s.emplace_back n = (s, i, false) := by
  rw [OrderPreservingABTSet.emplace_back, h]

theorem emplaceAll_vector (ns : List MemoNode) :
    ∀ s : OrderPreservingABTSet, (∀ n ∈ ns, n ∉ s.vector) → ns.Nodup →
      (s.emplaceAll ns).vector = s.vector ++ ns := by
  induction ns with
  | nil => intro s _ _; simp [OrderPreservingABTSet.emplaceAll]
  | cons n ns ih =>
    intro s hfresh hnodup
    have hn : n ∉ s.vector := hfresh n (List.mem_cons_self n ns)
    have hstep : (s.emplace_back n).1 = ⟨s.vector ++ [n]⟩ := by
      rw [emplace_back_not_mem s n hn]
    have hrest : ∀ x ∈ ns, x ∉ (s.vector ++ [n] : List MemoNode) := by
      intro x hx
      simp only [List.mem_append, List.mem_singleton]
      rintro (hc | hc)
      · exact hfresh x (List.mem_cons_of_mem n hx) hc
      · subst hc
        exact (List.nodup_cons.mp hnodup).1 hx
    have := ih ⟨s.vector ++ [n]⟩ hrest (List.nodup_cons.mp hnodup).2
    simp only [OrderPreservingABTSet.emplaceAll, List.foldl_cons] at *
    rw [hstep]
    rw [this]
    simp

/-- C3: Order preservation of `OrderPreservingABTSet`.  Inserting a sequence
of structurally distinct nodes via `emplace_back` into an empty set makes
`getVector` yield exactly the insertion order; `at?` round-trips every index
returned by an insertion to the inserted node; indices stay valid when further
nodes are inserted later; and only `clear` invalidates them. -/
theorem orderPreservingSet_order_preservation (ns : List MemoNode) (hnodup : ns.Nodup) :
    (OrderPreservingABTSet.emplaceAll ⟨[]⟩ ns).getVector = ns ∧
    (∀ i, (OrderPreservingABTSet.emplaceAll ⟨[]⟩ ns).at? i = ns[i]?) ∧
    (∀ s : OrderPreservingABTSet, ∀ n,
      ((s.emplace_back n).1).at? ((s.emplace_back n).2.1) = some n) ∧
    (∀ s : OrderPreservingABTSet, ∀ n i x,
      s.at? i = some x → ((s.emplace_back n).1).at? i = some x) ∧
    (∀ s : OrderPreservingABTSet, ∀ i, (s.clear).at? i = none) := by
  have hvec : (OrderPreservingABTSet.emplaceAll ⟨[]⟩ ns).vector = ns := by
    have := emplaceAll_vector ns ⟨[]⟩ (by intro n _ hc; simp at hc) hnodup
    simpa using this
  refine ⟨by simpa [OrderPreservingABTSet.getVector] using hvec, ?_, ?_, ?_, ?_⟩
  · intro i
    simp [OrderPreservingABTSet.at?, hvec]
  · intro s n
    cases h : findIdxOf n s.vector with
    | some i =>
      rw [emplace_back_mem s n i h]
      exact findIdxOf_some_get n s.vector i h
    | none =>
      rw [emplace_back_not_mem s n ((findIdxOf_eq_none_iff n s.vector).mp h)]
      simp [OrderPreservingABTSet.at?]
  · intro s n i x hx
    cases h : findIdxOf n s.vector with
    | some j => rw [emplace_back_mem s n j h]; exact hx
    | none =>
      rw [emplace_back_not_mem s n ((findIdxOf_eq_none_iff n s.vector).mp h)]
      simp only [OrderPreservingABTSet.at?] at hx ⊢
      have hi : i < s.vector.length := by
        by_contra hge
        rw [List.getElem?_eq_none (Nat.le_of_not_lt hge)] at hx
        exact Option.noConfusion hx
      rw [List.getElem?_append, if_pos hi]
      exact hx
  · intro s i
    simp [OrderPreservingABTSet.clear, OrderPreservingABTSet.at?]

/-- Witness for C3 at a concrete three-node insertion sequence. -/
theorem orderPreservingSet_order_preservation_witness :
    (OrderPreservingABTSet.emplaceAll ⟨[]⟩ [⟨0, []⟩, ⟨1, []⟩, ⟨2, [0]⟩]).getVector =
      [⟨0, []⟩, ⟨1, []⟩, ⟨2, [0]⟩] :=
  (orderPreservingSet_order_preservation [⟨0, []⟩, ⟨1, []⟩, ⟨2, [0]⟩] (by decide)).1

/-- C4: the dedup contract of `emplace_back`: emplacing a node structurally
equal to an already-stored one returns the existing stable index with the
"newly inserted" flag `false`, leaves the set (hence its size) unchanged, the
index round-trips through `at?` to the stored node, `find` is a pure lookup
agreeing with the stored contents, and `at?` fails on any out-of-range
index. -/
theorem orderPreservingSet_emplace_dedup_contract (s : OrderPreservingABTSet)
    (n : MemoNode) (i : Nat) (h : s.find n = (i, true)) :
    s.emplace_back n = (s, i, false) ∧
    ((s.emplace_back n).1).size = s.size ∧
    s.at? i = some n ∧
    (∀ j, s.size ≤ j → s.at? j = none) := by
  have hidx : findIdxOf n s.vector = some i := by
    rw [OrderPreservingABTSet.find] at h
    cases h2 : findIdxOf n s.vector with
    | some j => rw [h2] at h; injection h with h1 _; subst h1; rfl
    | none => rw [h2] at h; injection h with _ h2; exact Bool.noConfusion h2
  refine ⟨emplace_back_mem s n i hidx, ?_, findIdxOf_some_get n s.vector i hidx, ?_⟩
  · rw [emplace_back_mem s n i hidx]
  · intro j hj
    simp only [OrderPreservingABTSet.at?]
    exact List.getElem?_eq_none hj

/-- Witness for C4: a duplicate emplace on a concrete two-node set. -/
theorem orderPreservingSet_emplace_dedup_contract_witness :
    OrderPreservingABTSet.emplace_back ⟨[⟨0, []⟩, ⟨1, [0]⟩]⟩ ⟨1, [0]⟩ =
      (⟨[⟨0, []⟩, ⟨1, [0]⟩]⟩, 1, false) :=
  (orderPreservingSet_emplace_dedup_contract ⟨[⟨0, []⟩, ⟨1, [0]⟩]⟩ ⟨1, [0]⟩ 1 (by decide)).1

/-- C2: winner and cost-limit monotonicity for a `(group, physical property
set)` optimization result: once a winner `cur` exists, `checkAndSetWinner`
keeps a winner and only ever installs an equal-or-cheaper one (independently
of the current cost limit), and `raiseCostLimit` never decreases
`_costLimit`. -/
theorem physOpt_winner_costLimit_monotonic (r : PhysOptimizationResult)
    (cur info : PhysNodeInfo) (h : r.nodeInfo = some cur) :
    ((r.checkAndSetWinner info).nodeInfo.isSome = true) ∧
    (∀ w, (r.checkAndSetWinner info).nodeInfo = some w → w.cost ≤ cur.cost) ∧
    (∀ c, r.costLimit ≤ (r.raiseCostLimit c).costLimit) := by
  refine ⟨?_, ?_, ?_⟩
  · simp only [PhysOptimizationResult.checkAndSetWinner, h]
    by_cases hc : info.cost ≤ cur.cost
    · simp [hc]
    · simp [hc]
  · intro w hw
    simp only [PhysOptimizationResult.checkAndSetWinner, h] at hw
    by_cases hc : info.cost ≤ cur.cost
    · simp only [if_pos hc] at hw
      injection hw with hw
      subst hw
      exact hc
    · simp only [if_neg hc] at hw
      injection hw with hw
      subst hw
      exact Nat.le_refl _
  · intro c
    simp [PhysOptimizationResult.raiseCostLimit, Nat.le_max_left]

/-- Witness for C2 at a concrete result with winner cost 5 and a more
expensive candidate of cost 7. -/
theorem physOpt_winner_costLimit_monotonic_witness :
    ((PhysOptimizationResult.checkAndSetWinner
        ⟨0, [], 10, some ⟨⟨0, []⟩, 5, 1, 1, 0⟩, [], 0, []⟩
        ⟨⟨1, []⟩, 7, 1, 1, 0⟩).nodeInfo.isSome = true) ∧
    (PhysOptimizationResult.raiseCostLimit
      ⟨0, [], 10, some ⟨⟨0, []⟩, 5, 1, 1, 0⟩, [], 0, []⟩ 3).costLimit = 10 :=
  ⟨(physOpt_winner_costLimit_monotonic ⟨0, [], 10, some ⟨⟨0, []⟩, 5, 1, 1, 0⟩, [], 0, []⟩
      ⟨⟨0, []⟩, 5, 1, 1, 0⟩ ⟨⟨1, []⟩, 7, 1, 1, 0⟩ rfl).1, by decide⟩

/-- C8: idempotence of `estimateCE` — recomputing a group's logical
properties twice in a row, with no node insertion in between, yields the
identical memo (bit-identical logical properties, no corruption of any cached
state). -/
theorem estimateCE_idempotent (ctx : Context) (m : Memo) (gid : Nat) :
    Memo.estimateCE ctx (Memo.estimateCE ctx m gid) gid = Memo.estimateCE ctx m gid := by
  cases hg : m.groups[gid]? with
  | none =>
    simp [Memo.estimateCE, hg]
  | some g =>
    have hlt : gid < m.groups.length := by
      by_contra hge
      rw [List.getElem?_eq_none (Nat.le_of_not_lt hge)] at hg
      exact Option.noConfusion hg
    have h1 : Memo.estimateCE ctx m gid = m.updateGroup gid
        { g with logicalProperties := some (ctx.ceDerive g.logicalNodes.vector) } := by
      simp only [Memo.estimateCE, hg]
    rw [h1]
    have hg2 : (m.groups.set gid
        { g with logicalProperties := some (ctx.ceDerive g.logicalNodes.vector) })[gid]? =
        some { g with logicalProperties := some (ctx.ceDerive g.logicalNodes.vector) } := by
      simp [List.getElem?_set, hlt]
    simp only [Memo.estimateCE, hg2, Memo.updateGroup, List.set_set]

/-- C9: search exhaustion is not an error: when no result exists yet for a
property set, `addOptimizationResult` creates one whose winner `_nodeInfo` is
the empty optional and whose `isOptimized()` is `false` (and any freshly
constructed optimization result starts in that no-winner state); no error
value is produced. -/
theorem searchExhaustion_no_winner (pn : PhysNodes) (props : PhysProps) (c : Nat)
    (h : (pn.find props).2 = false) :
    ((pn.addOptimizationResult props c).1.at? (pn.addOptimizationResult props c).2 =
      some (mkPhysOptimizationResult pn.physicalNodes.length props c)) ∧
    ((pn.addOptimizationResult props c).1.at? (pn.addOptimizationResult props c).2).map
      PhysOptimizationResult.isOptimized = some false ∧
    ((pn.addOptimizationResult props c).1.at? (pn.addOptimizationResult props c).2).map
      PhysOptimizationResult.nodeInfo = some none ∧
    (∀ i p cl, (mkPhysOptimizationResult i p cl).nodeInfo = none ∧
      (mkPhysOptimizationResult i p cl).isOptimized = false) := by
  have hmiss : pn.find props = (0, false) := by
    rw [PhysNodes.find] at h ⊢
    cases h2 : assocFindBy propsEqv pn.physPropsToPhysNodeMap props with
    | some i => rw [h2] at h; exact Bool.noConfusion h
    | none => rfl
  have hadd : pn.addOptimizationResult props c =
      ({ physicalNodes :=
          pn.physicalNodes ++ [mkPhysOptimizationResult pn.physicalNodes.length props c]
         physPropsToPhysNodeMap :=
          pn.physPropsToPhysNodeMap ++ [(props, pn.physicalNodes.length)] },
        pn.physicalNodes.length) := by
    rw [PhysNodes.addOptimizationResult, hmiss]
  have hat : (pn.addOptimizationResult props c).1.at? (pn.addOptimizationResult props c).2 =
      some (mkPhysOptimizationResult pn.physicalNodes.length props c) := by
    rw [hadd]
    simp [PhysNodes.at?]
  refine ⟨hat, ?_, ?_, ?_⟩
  · rw [hat]; rfl
  · rw [hat]; rfl
  · intro i p cl
    exact ⟨rfl, rfl⟩

/-- Witness for C9: a fresh optimization attempt on an empty winner's circle
has no winner and is not optimized. -/
theorem searchExhaustion_no_winner_witness :
    (PhysNodes.addOptimizationResult ⟨[], []⟩ [(0, 1)] 5).1.at?
        (PhysNodes.addOptimizationResult ⟨[], []⟩ [(0, 1)] 5).2 =
      some (mkPhysOptimizationResult 0 [(0, 1)] 5) :=
  (searchExhaustion_no_winner ⟨[], []⟩ [(0, 1)] 5 (by decide)).1

theorem assocLookup_mem {α β : Type} [DecidableEq α] (l : List (α × β)) (k : α) (v : β)
    (h : assocLookup l k = some v) : (k, v) ∈ l := by
  induction l with
  | nil => simp [assocLookup] at h
  | cons kv rest ih =>
    obtain ⟨k0, v0⟩ := kv
    by_cases hk : k0 = k
    · subst hk
      rw [assocLookup, if_pos rfl] at h
      injection h with h
      subst h
      exact List.mem_cons_self _ _
    · rw [assocLookup, if_neg hk] at h
      exact List.mem_cons_of_mem _ (ih h)

theorem assocLookup_of_mem_nodup {α β : Type} [DecidableEq α] (l : List (α × β)) (k : α)
    (v : β) (hnd : (l.map Prod.fst).Nodup) (h : (k, v) ∈ l) : assocLookup l k = some v := by
  induction l with
  | nil => simp at h
  | cons kv rest ih =>
    obtain ⟨k0, v0⟩ := kv
    rcases List.mem_cons.mp h with hh | hh
    · injection hh with h1 h2
      subst h1; subst h2
      rw [assocLookup, if_pos rfl]
    · have hk : k0 ≠ k := by
        intro hc
        subst hc
        exact (List.nodup_cons.mp hnd).1
          (List.mem_map.mpr ⟨(k0, v), hh, rfl⟩)
      rw [assocLookup, if_neg hk]
      exact ih (List.nodup_cons.mp hnd).2 hh

theorem propsEqv_lookup (a b : PhysProps) (h : propsEqv a b = true) (k : Nat) :
    assocLookup a k = assocLookup b k := by
  rw [propsEqv, Bool.and_eq_true] at h
  obtain ⟨h1, h2⟩ := h
  rw [List.all_eq_true] at h1 h2
  cases hk : assocLookup a k with
  | some v =>
    have := h1 (k, v) (assocLookup_mem a k v hk)
    rw [decide_eq_true_eq] at this
    exact this.symm
  | none =>
    cases hk2 : assocLookup b k with
    | some w =>
      have := h2 (k, w) (assocLookup_mem b k w hk2)
      rw [decide_eq_true_eq] at this
      rw [this] at hk
      exact Option.noConfusion hk
    | none => rfl

theorem propsEqv_refl_of_nodup (a : PhysProps) (hnd : (a.map Prod.fst).Nodup) :
    propsEqv a a = true := by
  rw [propsEqv, Bool.and_eq_true]
  constructor <;>
  · rw [List.all_eq_true]
    intro kv hkv
    rw [decide_eq_true_eq]
    exact assocLookup_of_mem_nodup a kv.1 kv.2 hnd (by simpa using hkv)

theorem all_congr_of_eq {α : Type} (l : List α) (p q : α → Bool)
    (h : ∀ x ∈ l, p x = q x) : l.all p = l.all q := by
  induction l with
  | nil => rfl
  | cons x xs ih =>
    simp only [List.all_cons]
    rw [h x (List.mem_cons_self x xs), ih (fun y hy => h y (List.mem_cons_of_mem x hy))]

theorem all_congr_of_mem_iff {α : Type} (l₁ l₂ : List α) (p : α → Bool)
    (h : ∀ x, x ∈ l₁ ↔ x ∈ l₂) : l₁.all p = l₂.all p := by
  cases h1 : l₁.all p with
  | true =>
    rw [List.all_eq_true] at h1
    exact (List.all_eq_true.mpr (fun x hx => h1 x ((h x).mpr hx))).symm
  | false =>
    cases h2 : l₂.all p with
    | false => rfl
    | true =>
      rw [List.all_eq_true] at h2
      rw [List.all_eq_true.mpr (fun x hx => h2 x ((h x).mp hx))] at h1
      exact Bool.noConfusion h1

theorem propsEqv_key_congr (a b : PhysProps) (ha : (a.map Prod.fst).Nodup)
    (hb : (b.map Prod.fst).Nodup) (h : propsEqv a b = true) (x : PhysProps) :
    propsEqv x a = propsEqv x b := by
  have hlk := propsEqv_lookup a b h
  have hmem : ∀ kv : Nat × Nat, kv ∈ a ↔ kv ∈ b := by
    intro kv
    obtain ⟨k, v⟩ := kv
    constructor
    · intro hm
      exact assocLookup_mem b k v (by rw [← hlk k]; exact assocLookup_of_mem_nodup a k v ha hm)
    · intro hm
      exact assocLookup_mem a k v (by rw [hlk k]; exact assocLookup_of_mem_nodup b k v hb hm)
  rw [propsEqv, propsEqv]
  have e1 : x.all (fun kv => decide (assocLookup a kv.1 = some kv.2)) =
      x.all (fun kv => decide (assocLookup b kv.1 = some kv.2)) :=
    all_congr_of_eq x _ _ (fun kv _ => by rw [hlk kv.1])
  have e2 : a.all (fun kv => decide (assocLookup x kv.1 = some kv.2)) =
      b.all (fun kv => decide (assocLookup x kv.1 = some kv.2)) :=
    all_congr_of_mem_iff a b _ hmem
  rw [e1, e2]

theorem assocFindBy_congr {α β : Type} (eqv : α → α → Bool) (l : List (α × β)) (k k' : α)
    (h : ∀ kv ∈ l, eqv kv.1 k = eqv kv.1 k') : assocFindBy eqv l k = assocFindBy eqv l k' := by
  induction l with
  | nil => rfl
  | cons kv rest ih =>
    obtain ⟨k0, v0⟩ := kv
    rw [assocFindBy, assocFindBy, h (k0, v0) (List.mem_cons_self _ _)]
    by_cases hk : eqv k0 k' = true
    · rw [if_pos hk, if_pos hk]
    · rw [if_neg hk, if_neg hk]
      exact ih (fun kv hkv => h kv (List.mem_cons_of_mem _ hkv))

theorem assocFindBy_append_none {α β : Type} (eqv : α → α → Bool) (l l' : List (α × β))
    (k : α) (h : assocFindBy eqv l k = none) :
    assocFindBy eqv (l ++ l') k = assocFindBy eqv l' k := by
  induction l with
  | nil => rfl
  | cons kv rest ih =>
    obtain ⟨k0, v0⟩ := kv
    rw [assocFindBy] at h
    by_cases hk : eqv k0 k = true
    · rw [if_pos hk] at h; exact Option.noConfusion h
    · rw [if_neg hk] at h
      rw [List.cons_append, assocFindBy, if_neg hk]
      exact ih h

/-- C5: physical-search memoization in `PhysNodes`: `addOptimizationResult`
returns the existing result index (leaving the table untouched) whenever a
result already exists for a structurally equal property set; otherwise it
creates a fresh result at a previously unused index and registers it in the
property → index map; lookup is order-independent (value-exact) in the
property set; and no existing result — in particular no stored property set —
is ever mutated by the call. -/
theorem physNodes_addOptimizationResult_memoized (pn : PhysNodes) (props : PhysProps)
    (c : Nat) :
    (∀ i, pn.find props = (i, true) → pn.addOptimizationResult props c = (pn, i)) ∧
    ((pn.find props).2 = false →
      pn.addOptimizationResult props c =
        (⟨pn.physicalNodes ++ [mkPhysOptimizationResult pn.physicalNodes.length props c],
          pn.physPropsToPhysNodeMap ++ [(props, pn.physicalNodes.length)]⟩,
          pn.physicalNodes.length) ∧
      pn.at? (pn.addOptimizationResult props c).2 = none) ∧
    ((props.map Prod.fst).Nodup → (pn.find props).2 = false →
      ((pn.addOptimizationResult props c).1).find props = (pn.physicalNodes.length, true)) ∧
    (∀ props', (props.map Prod.fst).Nodup → (props'.map Prod.fst).Nodup →
      propsEqv props props' = true → pn.find props = pn.find props') ∧
    (∀ j r, pn.at? j = some r → ((pn.addOptimizationResult props c).1).at? j = some r) := by
  refine ⟨?_, ?_, ?_, ?_, ?_⟩
  · intro i h
    rw [PhysNodes.addOptimizationResult, h]
  · intro h
    have hmiss : pn.find props = (0, false) := by
      rw [PhysNodes.find] at h ⊢
      cases h2 : assocFindBy propsEqv pn.physPropsToPhysNodeMap props with
      | some i => rw [h2] at h; exact Bool.noConfusion h
      | none => rfl
    have hadd : pn.addOptimizationResult props c =
        (⟨pn.physicalNodes ++ [mkPhysOptimizationResult pn.physicalNodes.length props c],
          pn.physPropsToPhysNodeMap ++ [(props, pn.physicalNodes.length)]⟩,
          pn.physicalNodes.length) := by
      rw [PhysNodes.addOptimizationResult, hmiss]
    refine ⟨hadd, ?_⟩
    rw [hadd]
    simp [PhysNodes.at?]
  · intro hnd h
    have hnone : assocFindBy propsEqv pn.physPropsToPhysNodeMap props = none := by
      rw [PhysNodes.find] at h
      cases h2 : assocFindBy propsEqv pn.physPropsToPhysNodeMap props with
      | some i => rw [h2] at h; exact Bool.noConfusion h
      | none => rfl
    have hmiss : pn.find props = (0, false) := by
      rw [PhysNodes.find, hnone]
    rw [PhysNodes.addOptimizationResult, hmiss]
    simp only [PhysNodes.find]
    rw [assocFindBy_append_none propsEqv _ _ props hnone]
    rw [assocFindBy, if_pos (propsEqv_refl_of_nodup props hnd)]
  · intro props' ha hb heq
    rw [PhysNodes.find, PhysNodes.find,
      assocFindBy_congr propsEqv pn.physPropsToPhysNodeMap props props'
        (fun kv _ => propsEqv_key_congr props props' ha hb heq kv.1)]
  · intro j r hj
    rw [PhysNodes.addOptimizationResult]
    cases hf : pn.find props with
    | mk i b =>
      cases b with
      | true => exact hj
      | false =>
        simp only [PhysNodes.at?] at hj ⊢
        have hlt : j < pn.physicalNodes.length := by
          by_contra hge
          rw [List.getElem?_eq_none (Nat.le_of_not_lt hge)] at hj
          exact Option.noConfusion hj
        rw [List.getElem?_append, if_pos hlt]
        exact hj

/-- Witness for C5: lookup of the same two-property set in both insertion
orders hits the same entry after a concrete insertion. -/
theorem physNodes_addOptimizationResult_memoized_witness :
    (PhysNodes.addOptimizationResult ⟨[], []⟩ [(1, 2), (0, 5)] 7).1.find [(1, 2), (0, 5)] =
      (PhysNodes.addOptimizationResult ⟨[], []⟩ [(1, 2), (0, 5)] 7).1.find [(0, 5), (1, 2)] :=
  (physNodes_addOptimizationResult_memoized
      (PhysNodes.addOptimizationResult ⟨[], []⟩ [(1, 2), (0, 5)] 7).1 [(1, 2), (0, 5)]
      7).2.2.2.1 [(0, 5), (1, 2)] (by decide) (by decide) (by decide)

/-! ### Map and list update lemmas for the memo's auxiliary structures -/

theorem concat_set_length {α : Type} (l : List α) (x y : α) :
    (l ++ [x]).set l.length y = l ++ [y] := by
  induction l with
  | nil => rfl
  | cons a as ih => simp [List.set_cons_succ, ih]

theorem getElem?_concat_self {α : Type} (l : List α) (x : α) : (l ++ [x])[l.length]? = some x := by
  rw [List.getElem?_append_right (Nat.le_refl _)]
  simp

theorem assocLookup_assocInsert_self {α β : Type} [DecidableEq α] (l : List (α × β))
    (k : α) (v : β) : assocLookup (assocInsert l k v) k = some v := by
  induction l with
  | nil => simp [assocInsert, assocLookup]
  | cons kv rest ih =>
    obtain ⟨k0, w⟩ := kv
    by_cases hk : k0 = k
    · subst hk
      rw [assocInsert, if_pos rfl, assocLookup, if_pos rfl]
    · rw [assocInsert, if_neg hk, assocLookup, if_neg hk]
      exact ih

theorem assocLookup_assocInsert_other {α β : Type} [DecidableEq α] (l : List (α × β))
    (k k' : α) (v : β) (h : k' ≠ k) :
    assocLookup (assocInsert l k v) k' = assocLookup l k' := by
  induction l with
  | nil =>
    show assocLookup [(k, v)] k' = none
    rw [assocLookup, if_neg (fun hc => h hc.symm)]
    rfl
  | cons kv rest ih =>
    obtain ⟨k0, w⟩ := kv
    by_cases hk : k0 = k
    · subst hk
      rw [assocInsert, if_pos rfl]
      rw [assocLookup, assocLookup, if_neg (fun hc => h hc.symm), if_neg (fun hc => h hc.symm)]
    · rw [assocInsert, if_neg hk]
      by_cases hk2 : k0 = k'
      · subst hk2
        rw [assocLookup, if_pos rfl, assocLookup, if_pos rfl]
      · rw [assocLookup, if_neg hk2, assocLookup, if_neg hk2]
        exact ih

theorem assocInsert_keys_sub {α β : Type} [DecidableEq α] (l : List (α × β)) (k : α) (v : β)
    (x : α) (h : x ∈ (assocInsert l k v).map Prod.fst) : x ∈ l.map Prod.fst ∨ x = k := by
  induction l with
  | nil => simp [assocInsert] at h; exact Or.inr h
  | cons kv rest ih =>
    obtain ⟨k0, w⟩ := kv
    by_cases hk : k0 = k
    · subst hk
      rw [assocInsert, if_pos rfl] at h
      simp at h
      rcases h with h | h
      · exact Or.inl (by simp [h])
      · exact Or.inl (by simp [h])
    · rw [assocInsert, if_neg hk] at h
      simp at h
      rcases h with h | h
      · exact Or.inl (by simp [h])
      · rcases ih (by simpa using h) with hh | hh
        · exact Or.inl (by simp at hh ⊢; exact Or.inr hh)
        · exact Or.inr hh

theorem assocInsert_keys_nodup {α β : Type} [DecidableEq α] (l : List (α × β)) (k : α) (v : β)
    (h : (l.map Prod.fst).Nodup) : ((assocInsert l k v).map Prod.fst).Nodup := by
  induction l with
  | nil => simp [assocInsert]
  | cons kv rest ih =>
    obtain ⟨k0, w⟩ := kv
    by_cases hk : k0 = k
    · subst hk
      rw [assocInsert, if_pos rfl]
      simpa using h
    · rw [assocInsert, if_neg hk]
      simp only [List.map_cons, List.nodup_cons] at h ⊢
      refine ⟨?_, ih h.2⟩
      intro hc
      rcases assocInsert_keys_sub rest k v k0 hc with hh | hh
      · exact h.1 hh
      · exact hk hh

theorem insertToEntry_lookup_self (l : List (List Nat × List MemoLogicalNodeId))
    (key : List Nat) (id : MemoLogicalNodeId) :
    assocLookup (insertToEntry l key id) key =
      some (if id ∈ (assocLookup l key).getD [] then (assocLookup l key).getD []
        else (assocLookup l key).getD [] ++ [id]) := by
  induction l with
  | nil => simp [insertToEntry, assocLookup]
  | cons kv rest ih =>
    obtain ⟨k0, ids⟩ := kv
    by_cases hk : k0 = key
    · subst hk
      rw [insertToEntry, if_pos rfl, assocLookup, if_pos rfl, assocLookup, if_pos rfl]
      simp
    · rw [insertToEntry, if_neg hk, assocLookup, if_neg hk, assocLookup, if_neg hk]
      exact ih

theorem insertToEntry_lookup_other (l : List (List Nat × List MemoLogicalNodeId))
    (key key' : List Nat) (id : MemoLogicalNodeId) (h : key' ≠ key) :
    assocLookup (insertToEntry l key id) key' = assocLookup l key' := by
  induction l with
  | nil =>
    show assocLookup [(key, [id])] key' = none
    rw [assocLookup, if_neg (fun hc => h hc.symm)]
    rfl
  | cons kv rest ih =>
    obtain ⟨k0, ids⟩ := kv
    by_cases hk : k0 = key
    · subst hk
      rw [insertToEntry, if_pos rfl]
      rw [assocLookup, assocLookup, if_neg (fun hc => h hc.symm), if_neg (fun hc => h hc.symm)]
    · rw [insertToEntry, if_neg hk]
      by_cases hk2 : k0 = key'
      · subst hk2
        rw [assocLookup, if_pos rfl, assocLookup, if_pos rfl]
      · rw [assocLookup, if_neg hk2, assocLookup, if_neg hk2]
        exact ih

theorem insertToEntry_keys_sub (l : List (List Nat × List MemoLogicalNodeId))
    (key : List Nat) (id : MemoLogicalNodeId) (x : List Nat)
    (h : x ∈ (insertToEntry l key id).map Prod.fst) : x ∈ l.map Prod.fst ∨ x = key := by
  induction l with
  | nil => simp [insertToEntry] at h; exact Or.inr h
  | cons kv rest ih =>
    obtain ⟨k0, ids⟩ := kv
    by_cases hk : k0 = key
    · subst hk
      rw [insertToEntry, if_pos rfl] at h
      simp at h
      rcases h with h | h
      · exact Or.inl (by simp [h])
      · exact Or.inl (by simp [h])
    · rw [insertToEntry, if_neg hk] at h
      simp at h
      rcases h with h | h
      · exact Or.inl (by simp [h])
      · rcases ih (by simpa using h) with hh | hh
        · exact Or.inl (by simp at hh ⊢; exact Or.inr hh)
        · exact Or.inr hh

theorem insertToEntry_keys_nodup (l : List (List Nat × List MemoLogicalNodeId))
    (key : List Nat) (id : MemoLogicalNodeId) (h : (l.map Prod.fst).Nodup) :
    ((insertToEntry l key id).map Prod.fst).Nodup := by
  induction l with
  | nil => simp [insertToEntry]
  | cons kv rest ih =>
    obtain ⟨k0, ids⟩ := kv
    by_cases hk : k0 = key
    · subst hk
      rw [insertToEntry, if_pos rfl]
      simpa using h
    · rw [insertToEntry, if_neg hk]
      simp only [List.map_cons, List.nodup_cons] at h ⊢
      refine ⟨?_, ih h.2⟩
      intro hc
      rcases insertToEntry_keys_sub rest key id k0 hc with hh | hh
      · exact h.1 hh
      · exact hk hh

/-! ### Characterization of the memo operations used by integration -/

theorem addGroup_eq (m : Memo) (proj : List Nat) :
    m.addGroup proj = ({ m with groups := m.groups ++ [mkGroup proj] }, m.groups.length) := rfl

theorem addNodeToGroup_concat (m : Memo) (proj : List Nat) (n : MemoNode) (rule : Nat) :
    Memo.addNodeToGroup { m with groups := m.groups ++ [mkGroup proj] } m.groups.length n rule =
      ({ m with groups := m.groups ++
          [{ logicalNodes := ⟨[n]⟩, rules := [rule], logicalProperties := none,
             binder := proj, logicalRewriteQueue := [], physicalNodes := ⟨[], []⟩ }] },
        ⟨m.groups.length, 0⟩, true) := by
  have hng : (m.groups ++ [mkGroup proj])[m.groups.length]? = some (mkGroup proj) :=
    getElem?_concat_self m.groups (mkGroup proj)
  simp only [Memo.addNodeToGroup, hng]
  simp only [mkGroup, OrderPreservingABTSet.emplace_back, findIdxOf, Memo.updateGroup,
    concat_set_length, List.nil_append, List.length_nil, if_true]

theorem estimateCE_concat (ctx : Context) (m : Memo) (gs : List Group) (g : Group)
    (h : m.groups = gs ++ [g]) :
    Memo.estimateCE ctx m gs.length = { m with groups := gs ++
        [{ g with logicalProperties := some (ctx.ceDerive g.logicalNodes.vector) }] } := by
  have hng2 : (gs ++ [g])[gs.length]? = some g := getElem?_concat_self gs g
  simp only [Memo.estimateCE, h, hng2, Memo.updateGroup, concat_set_length]

theorem addNode_fresh_eq (ctx : Context) (m : Memo) (gv proj : List Nat)
    (ins : List MemoLogicalNodeId) (n : MemoNode) (rule : Nat) :
    Memo.addNode ctx m gv proj (-1) ins n rule =
      ({ groups := m.groups ++
          [{ logicalNodes := ⟨[n]⟩, rules := [rule],
             logicalProperties := some (ctx.ceDerive [n]), binder := proj,
             logicalRewriteQueue := [], physicalNodes := ⟨[], []⟩ }]
         inputGroupsToNodeIdMap :=
          insertToEntry m.inputGroupsToNodeIdMap gv ⟨m.groups.length, 0⟩
         nodeIdToInputGroupsMap :=
          assocInsert m.nodeIdToInputGroupsMap ⟨m.groups.length, 0⟩ gv
         stats := m.stats },
        ⟨m.groups.length, 0⟩, ins ++ [⟨m.groups.length, 0⟩]) := by
  simp only [Memo.addNode, if_pos (by decide : (-1 : Int) < 0), addGroup_eq,
    addNodeToGroup_concat, if_true]
  rw [estimateCE_concat ctx _ m.groups _ rfl]

theorem find?_congr_mem {α : Type} (l : List α) (p q : α → Bool)
    (h : ∀ x ∈ l, p x = q x) : List.find? p l = List.find? q l := by
  induction l with
  | nil => rfl
  | cons x xs ih =>
    rw [List.find?_cons, List.find?_cons, h x (List.mem_cons_self x xs),
      ih (fun y hy => h y (List.mem_cons_of_mem x hy))]

theorem addNode_fresh_getNode (ctx : Context) (m : Memo) (gv proj : List Nat)
    (ins : List MemoLogicalNodeId) (n : MemoNode) (rule : Nat) (id : MemoLogicalNodeId) :
    (Memo.addNode ctx m gv proj (-1) ins n rule).1.getNode id =
      if id = ⟨m.groups.length, 0⟩ then some n else m.getNode id := by
  rw [addNode_fresh_eq]
  by_cases hid : id = ⟨m.groups.length, 0⟩
  · subst hid
    rw [if_pos rfl]
    simp only [Memo.getNode, getElem?_concat_self, OrderPreservingABTSet.at?]
    rfl
  · rw [if_neg hid]
    obtain ⟨g, i⟩ := id
    simp only [Memo.getNode]
    rcases Nat.lt_trichotomy g m.groups.length with hg | hg | hg
    · rw [List.getElem?_append, if_pos hg]
    · subst hg
      have hi : i ≠ 0 := by
        intro hc
        exact hid (by rw [hc])
      rw [getElem?_concat_self, List.getElem?_eq_none (Nat.le_refl _)]
      simp only [OrderPreservingABTSet.at?]
      cases i with
      | zero => exact absurd rfl hi
      | succ j => simp
    · have h1 : (m.groups ++
          [({ logicalNodes := ⟨[n]⟩, rules := [rule],
              logicalProperties := some (ctx.ceDerive [n]), binder := proj,
              logicalRewriteQueue := [], physicalNodes := ⟨[], []⟩ } : Group)]).length ≤ g := by
        simp
        omega
      rw [List.getElem?_eq_none h1, List.getElem?_eq_none (Nat.le_of_lt hg)]

theorem addNode_fresh_entryList (ctx : Context) (m : Memo) (gv proj : List Nat)
    (ins : List MemoLogicalNodeId) (n : MemoNode) (rule : Nat) (key : List Nat)
    (hfresh : (⟨m.groups.length, 0⟩ : MemoLogicalNodeId) ∉ m.entryList gv) :
    (Memo.addNode ctx m gv proj (-1) ins n rule).1.entryList key =
      if key = gv then m.entryList gv ++ [⟨m.groups.length, 0⟩] else m.entryList key := by
  rw [addNode_fresh_eq]
  by_cases hk : key = gv
  · subst hk
    rw [Memo.entryList] at hfresh
    simp only [Memo.entryList, insertToEntry_lookup_self, Option.getD_some]
    rw [if_neg hfresh]
    simp
  · simp only [Memo.entryList, insertToEntry_lookup_other _ _ _ _ hk, if_neg hk]

theorem addNode_fresh_inv (ctx : Context) (m : Memo) (gv proj : List Nat)
    (ins : List MemoLogicalNodeId) (n : MemoNode) (rule : Nat) :
    (Memo.addNode ctx m gv proj (-1) ins n rule).1.nodeIdToInputGroupsMap =
      assocInsert m.nodeIdToInputGroupsMap ⟨m.groups.length, 0⟩ gv := by
  rw [addNode_fresh_eq]

theorem addNode_fresh_fwd (ctx : Context) (m : Memo) (gv proj : List Nat)
    (ins : List MemoLogicalNodeId) (n : MemoNode) (rule : Nat) :
    (Memo.addNode ctx m gv proj (-1) ins n rule).1.inputGroupsToNodeIdMap =
      insertToEntry m.inputGroupsToNodeIdMap gv ⟨m.groups.length, 0⟩ := by
  rw [addNode_fresh_eq]

theorem addNode_fresh_groupCount (ctx : Context) (m : Memo) (gv proj : List Nat)
    (ins : List MemoLogicalNodeId) (n : MemoNode) (rule : Nat) :
    (Memo.addNode ctx m gv proj (-1) ins n rule).1.groups.length = m.groups.length + 1 := by
  rw [addNode_fresh_eq]
  simp

theorem addNode_fresh_ids (ctx : Context) (m : Memo) (gv proj : List Nat)
    (ins : List MemoLogicalNodeId) (n : MemoNode) (rule : Nat) :
    (Memo.addNode ctx m gv proj (-1) ins n rule).2.1 = ⟨m.groups.length, 0⟩ ∧
    (Memo.addNode ctx m gv proj (-1) ins n rule).2.2 = ins ++ [⟨m.groups.length, 0⟩] := by
  rw [addNode_fresh_eq]
  exact ⟨rfl, rfl⟩

theorem Memo.Le.refl (m : Memo) : Memo.Le m m :=
  ⟨fun _ _ h => h, fun key => ⟨[], (List.append_nil _).symm⟩, Nat.le_refl _⟩

theorem Memo.Le.trans {m1 m2 m3 : Memo} (h1 : Memo.Le m1 m2) (h2 : Memo.Le m2 m3) :
    Memo.Le m1 m3 := by
  refine ⟨fun id n h => h2.1 id n (h1.1 id n h), fun key => ?_, Nat.le_trans h1.2.2 h2.2.2⟩
  obtain ⟨s1, hs1⟩ := h1.2.1 key
  obtain ⟨s2, hs2⟩ := h2.2.1 key
  exact ⟨s1 ++ s2, by rw [hs2, hs1, List.append_assoc]⟩

theorem wf_id_big_not_mem {m : Memo} (hwf : Memo.WF m) (key : List Nat) (i : Nat) :
    (⟨m.groups.length, i⟩ : MemoLogicalNodeId) ∉ m.entryList key := by
  intro hc
  obtain ⟨n, hn, _⟩ := hwf.entriesValid key _ hc
  rw [Memo.getNode] at hn
  rw [List.getElem?_eq_none (Nat.le_refl _)] at hn
  exact Option.noConfusion hn

theorem findNode_mono {m m' : Memo} (hwf : Memo.WF m) (hle : Memo.Le m m')
    (gs : List Nat) (n : MemoNode) (id : MemoLogicalNodeId)
    (h : m.findNode gs n = some id) : m'.findNode gs n = some id := by
  rw [Memo.findNode] at h ⊢
  obtain ⟨s, hs⟩ := hle.2.1 gs
  rw [hs, List.find?_append]
  have hcongr : List.find? (fun id => decide (m'.getNode id = some n)) (m.entryList gs) =
      List.find? (fun id => decide (m.getNode id = some n)) (m.entryList gs) := by
    apply find?_congr_mem
    intro x hx
    obtain ⟨nx, hnx, _⟩ := hwf.entriesValid gs x hx
    rw [hnx, hle.1 x nx hnx]
  rw [hcongr, h]
  rfl

mutual

theorem Resident_mono {m m' : Memo} (hwf : Memo.WF m) (hle : Memo.Le m m') :
    ∀ t id, Resident m t id → Resident m' t id
  | .node op cs, id, h => by
    cases h with
    | node _ _ gids _ hlist hfind =>
      exact Resident.node m' op cs gids id (ResidentList_mono hwf hle cs gids hlist)
        (findNode_mono hwf hle gids ⟨op, gids⟩ id hfind)

theorem ResidentList_mono {m m' : Memo} (hwf : Memo.WF m) (hle : Memo.Le m m') :
    ∀ cs gids, ResidentList m cs gids → ResidentList m' cs gids
  | [], _, h => by
    cases h
    exact ResidentList.nil m'
  | c :: cs, _, h => by
    cases h with
    | cons _ cid _ gids hr hrl =>
      exact ResidentList.cons m' c cid cs gids (Resident_mono hwf hle c cid hr)
        (ResidentList_mono hwf hle cs gids hrl)

end

theorem addNode_fresh_step (ctx : Context) (m : Memo) (op : Nat) (gids : List Nat)
    (ins : List MemoLogicalNodeId) (rule : Nat) (hwf : Memo.WF m)
    (hmiss : m.findNode gids ⟨op, gids⟩ = none) :
    Memo.WF (Memo.addNode ctx m gids [op] (-1) ins ⟨op, gids⟩ rule).1 ∧
    Memo.Le m (Memo.addNode ctx m gids [op] (-1) ins ⟨op, gids⟩ rule).1 ∧
    (Memo.addNode ctx m gids [op] (-1) ins ⟨op, gids⟩ rule).1.findNode gids ⟨op, gids⟩ =
      some ⟨m.groups.length, 0⟩ ∧
    (Memo.addNode ctx m gids [op] (-1) ins ⟨op, gids⟩ rule).2.1 = ⟨m.groups.length, 0⟩ ∧
    (Memo.addNode ctx m gids [op] (-1) ins ⟨op, gids⟩ rule).2.2 =
      ins ++ [⟨m.groups.length, 0⟩] := by
  have hfreshmem : ∀ key, (⟨m.groups.length, 0⟩ : MemoLogicalNodeId) ∉ m.entryList key :=
    fun key => wf_id_big_not_mem hwf key 0
  have hGet := addNode_fresh_getNode ctx m gids [op] ins ⟨op, gids⟩ rule
  have hEnt := fun key =>
    addNode_fresh_entryList ctx m gids [op] ins ⟨op, gids⟩ rule key (hfreshmem gids)
  have hInv := addNode_fresh_inv ctx m gids [op] ins ⟨op, gids⟩ rule
  have hFwd := addNode_fresh_fwd ctx m gids [op] ins ⟨op, gids⟩ rule
  have hCount := addNode_fresh_groupCount ctx m gids [op] ins ⟨op, gids⟩ rule
  have hGetNidNone : m.getNode ⟨m.groups.length, 0⟩ = none := by
    rw [Memo.getNode, List.getElem?_eq_none (Nat.le_refl _)]
  have hNoMatch : ∀ x ∈ m.entryList gids, ¬ m.getNode x = some ⟨op, gids⟩ := by
    intro x hx hc
    have := List.find?_eq_none.mp hmiss x hx
    simp only [decide_eq_true_eq] at this
    exact this hc
  have hle : Memo.Le m (Memo.addNode ctx m gids [op] (-1) ins ⟨op, gids⟩ rule).1 := by
    refine ⟨?_, ?_, ?_⟩
    · intro id n' h
      rw [hGet id]
      by_cases hid : id = ⟨m.groups.length, 0⟩
      · subst hid
        rw [hGetNidNone] at h
        exact Option.noConfusion h
      · rw [if_neg hid]
        exact h
    · intro key
      rw [hEnt key]
      by_cases hk : key = gids
      · subst hk
        exact ⟨[⟨m.groups.length, 0⟩], by rw [if_pos rfl]⟩
      · exact ⟨[], by rw [if_neg hk, List.append_nil]⟩
    · rw [hCount]
      exact Nat.le_succ _
  have hidne : ∀ x ∈ m.entryList gids, x ≠ (⟨m.groups.length, 0⟩ : MemoLogicalNodeId) := by
    intro x hx hc
    subst hc
    exact hfreshmem gids hx
  have hfind : (Memo.addNode ctx m gids [op] (-1) ins ⟨op, gids⟩ rule).1.findNode gids
      ⟨op, gids⟩ = some ⟨m.groups.length, 0⟩ := by
    rw [Memo.findNode, hEnt gids, if_pos rfl, List.find?_append]
    have h1 : List.find?
        (fun id => decide ((Memo.addNode ctx m gids [op] (-1) ins ⟨op, gids⟩ rule).1.getNode id =
          some ⟨op, gids⟩)) (m.entryList gids) = none := by
      rw [List.find?_eq_none]
      intro x hx
      rw [hGet x, if_neg (hidne x hx), decide_eq_true_eq]
      exact hNoMatch x hx
    rw [h1]
    have h2 : (Memo.addNode ctx m gids [op] (-1) ins ⟨op, gids⟩ rule).1.getNode
        ⟨m.groups.length, 0⟩ = some ⟨op, gids⟩ := by
      rw [hGet, if_pos rfl]
    simp [List.find?_cons, h2]
  have hwf2 : Memo.WF (Memo.addNode ctx m gids [op] (-1) ins ⟨op, gids⟩ rule).1 := by
    constructor
    · intro key id hid
      rw [hEnt key] at hid
      by_cases hk : key = gids
      · rw [if_pos hk, List.mem_append, List.mem_singleton] at hid
        rcases hid with hid | hid
        · obtain ⟨n0, hn0, hch⟩ := hwf.entriesValid gids id hid
          refine ⟨n0, ?_, by rw [hch, hk]⟩
          rw [hGet id, if_neg (hidne id hid)]
          exact hn0
        · refine ⟨⟨op, gids⟩, ?_, by rw [hk]⟩
          rw [hGet id, if_pos hid]
      · rw [if_neg hk] at hid
        obtain ⟨n0, hn0, hch⟩ := hwf.entriesValid key id hid
        refine ⟨n0, ?_, hch⟩
        rw [hGet id]
        by_cases hidn : id = ⟨m.groups.length, 0⟩
        · rw [hidn, hGetNidNone] at hn0
          exact Option.noConfusion hn0
        · rw [if_neg hidn]
          exact hn0
    · intro key
      rw [hEnt key]
      by_cases hk : key = gids
      · rw [if_pos hk, List.pairwise_append]
        refine ⟨?_, List.pairwise_singleton _ _, ?_⟩
        · refine (hwf.entriesPairwise gids).imp_of_mem ?_
          intro a b ha hb hne
          rw [hGet a, if_neg (hidne a ha), hGet b, if_neg (hidne b hb)]
          exact hne
        · intro a ha b hb
          rw [List.mem_singleton] at hb
          rw [hb, hGet a, if_neg (hidne a ha), hGet, if_pos rfl]
          obtain ⟨n0, hn0, _⟩ := hwf.entriesValid gids a ha
          rw [hn0]
          intro hc
          injection hc with hc
          rw [← hc] at hNoMatch
          exact hNoMatch a ha hn0
      · rw [if_neg hk]
        refine (hwf.entriesPairwise key).imp_of_mem ?_
        intro a b ha hb hne
        have hane : a ≠ (⟨m.groups.length, 0⟩ : MemoLogicalNodeId) := by
          intro hc
          rw [hc] at ha
          exact hfreshmem key ha
        have hbne : b ≠ (⟨m.groups.length, 0⟩ : MemoLogicalNodeId) := by
          intro hc
          rw [hc] at hb
          exact hfreshmem key hb
        rw [hGet a, if_neg hane, hGet b, if_neg hbne]
        exact hne
    · intro key id
      rw [hEnt key, hInv]
      by_cases hid : id = ⟨m.groups.length, 0⟩
      · rw [hid, assocLookup_assocInsert_self]
        by_cases hk : key = gids
        · rw [if_pos hk, hk]
          simp
        · rw [if_neg hk]
          constructor
          · intro hc
            exact absurd hc (hfreshmem key)
          · intro hc
            injection hc with hc
            exact absurd hc.symm hk
      · rw [assocLookup_assocInsert_other _ _ _ _ hid]
        by_cases hk : key = gids
        · rw [if_pos hk, List.mem_append, List.mem_singleton, hk]
          rw [← hwf.fwdInvAgree gids id]
          constructor
          · intro hc
            rcases hc with hc | hc
            · exact hc
            · exact absurd hc hid
          · intro hc
            exact Or.inl hc
        · rw [if_neg hk]
          exact hwf.fwdInvAgree key id
    · rw [hFwd]
      exact insertToEntry_keys_nodup _ _ _ hwf.fwdKeysNodup
    · rw [hInv]
      exact assocInsert_keys_nodup _ _ _ hwf.invKeysNodup
  exact ⟨hwf2, hle, hfind, (addNode_fresh_ids ctx m gids [op] ins ⟨op, gids⟩ rule).1,
    (addNode_fresh_ids ctx m gids [op] ins ⟨op, gids⟩ rule).2⟩

theorem estimateCE_getNode (ctx : Context) (m : Memo) (gid : Nat) (id : MemoLogicalNodeId) :
    (Memo.estimateCE ctx m gid).getNode id = m.getNode id := by
  cases hg : m.groups[gid]? with
  | none => simp [Memo.estimateCE, hg]
  | some g =>
    simp only [Memo.estimateCE, hg, Memo.updateGroup, Memo.getNode]
    by_cases hid : gid = id.groupId
    · rw [← hid, List.getElem?_set, if_pos rfl]
      have hlt : gid < m.groups.length := by
        by_contra hge
        rw [List.getElem?_eq_none (Nat.le_of_not_lt hge)] at hg
        exact Option.noConfusion hg
      rw [if_pos hlt, ← hid] at *
      rw [hg]
    · rw [List.getElem?_set, if_neg hid]

theorem estimateCE_groups_length (ctx : Context) (m : Memo) (gid : Nat) :
    (Memo.estimateCE ctx m gid).groups.length = m.groups.length := by
  cases hg : m.groups[gid]? with
  | none => simp [Memo.estimateCE, hg]
  | some g => simp [Memo.estimateCE, hg, Memo.updateGroup]

theorem estimateCE_fwdMap (ctx : Context) (m : Memo) (gid : Nat) :
    (Memo.estimateCE ctx m gid).inputGroupsToNodeIdMap = m.inputGroupsToNodeIdMap := by
  cases hg : m.groups[gid]? with
  | none => simp [Memo.estimateCE, hg]
  | some g => simp [Memo.estimateCE, hg, Memo.updateGroup]

theorem estimateCE_invMap (ctx : Context) (m : Memo) (gid : Nat) :
    (Memo.estimateCE ctx m gid).nodeIdToInputGroupsMap = m.nodeIdToInputGroupsMap := by
  cases hg : m.groups[gid]? with
  | none => simp [Memo.estimateCE, hg]
  | some g => simp [Memo.estimateCE, hg, Memo.updateGroup]

theorem addNode_neg_eq (ctx : Context) (m : Memo) (gv proj : List Nat)
    (ins : List MemoLogicalNodeId) (n : MemoNode) (rule : Nat) (tg : Int) (htg : tg < 0) :
    Memo.addNode ctx m gv proj tg ins n rule = Memo.addNode ctx m gv proj (-1) ins n rule := by
  simp only [Memo.addNode, if_pos htg, if_pos (show (-1 : Int) < 0 by decide)]

theorem addNodeToGroup_invalid (m : Memo) (gid : Nat) (n : MemoNode) (rule : Nat)
    (hg : m.groups[gid]? = none) :
    Memo.addNodeToGroup m gid n rule = (m, ⟨gid, 0⟩, false) := by
  simp only [Memo.addNodeToGroup, hg]

theorem addNodeToGroup_dup (m : Memo) (gid : Nat) (n : MemoNode) (rule : Nat) (g : Group)
    (i : Nat) (hg : m.groups[gid]? = some g) (hidx : findIdxOf n g.logicalNodes.vector = some i) :
    Memo.addNodeToGroup m gid n rule = (m, ⟨gid, i⟩, false) := by
  simp only [Memo.addNodeToGroup, hg, OrderPreservingABTSet.emplace_back, hidx]
  simp

theorem addNodeToGroup_insert (m : Memo) (gid : Nat) (n : MemoNode) (rule : Nat) (g : Group)
    (hg : m.groups[gid]? = some g) (hidx : findIdxOf n g.logicalNodes.vector = none) :
    Memo.addNodeToGroup m gid n rule =
      (m.updateGroup gid
        { g with
          logicalNodes := ⟨g.logicalNodes.vector ++ [n]⟩
          rules := g.rules ++ [rule] },
        ⟨gid, g.logicalNodes.vector.length⟩, true) := by
  simp only [Memo.addNodeToGroup, hg, OrderPreservingABTSet.emplace_back, hidx]
  simp

theorem addNode_nonneg_invalid (ctx : Context) (m : Memo) (gv proj : List Nat)
    (ins : List MemoLogicalNodeId) (n : MemoNode) (rule : Nat) (tg : Int) (htg : ¬ tg < 0)
    (hg : m.groups[tg.toNat]? = none) :
    Memo.addNode ctx m gv proj tg ins n rule = (m, ⟨tg.toNat, 0⟩, ins) := by
  simp only [Memo.addNode, if_neg htg, addNodeToGroup_invalid m tg.toNat n rule hg]
  simp

theorem addNode_nonneg_dup (ctx : Context) (m : Memo) (gv proj : List Nat)
    (ins : List MemoLogicalNodeId) (n : MemoNode) (rule : Nat) (tg : Int) (htg : ¬ tg < 0)
    (g : Group) (i : Nat) (hg : m.groups[tg.toNat]? = some g)
    (hidx : findIdxOf n g.logicalNodes.vector = some i) :
    Memo.addNode ctx m gv proj tg ins n rule = (m, ⟨tg.toNat, i⟩, ins) := by
  simp only [Memo.addNode, if_neg htg, addNodeToGroup_dup m tg.toNat n rule g i hg hidx]
  simp

theorem addNode_nonneg_insert (ctx : Context) (m : Memo) (gv proj : List Nat)
    (ins : List MemoLogicalNodeId) (n : MemoNode) (rule : Nat) (tg : Int) (htg : ¬ tg < 0)
    (g : Group) (hg : m.groups[tg.toNat]? = some g)
    (hidx : findIdxOf n g.logicalNodes.vector = none) :
    Memo.addNode ctx m gv proj tg ins n rule =
      (Memo.estimateCE ctx
        { m with
          groups := m.groups.set tg.toNat
            ({ g with
              logicalNodes := ⟨g.logicalNodes.vector ++ [n]⟩
              rules := g.rules ++ [rule] })
          inputGroupsToNodeIdMap := insertToEntry m.inputGroupsToNodeIdMap gv
            ⟨tg.toNat, g.logicalNodes.vector.length⟩
          nodeIdToInputGroupsMap := assocInsert m.nodeIdToInputGroupsMap
            ⟨tg.toNat, g.logicalNodes.vector.length⟩ gv } tg.toNat,
        ⟨tg.toNat, g.logicalNodes.vector.length⟩,
        ins ++ [⟨tg.toNat, g.logicalNodes.vector.length⟩]) := by
  simp only [Memo.addNode, if_neg htg, addNodeToGroup_insert m tg.toNat n rule g hg hidx,
    Memo.updateGroup]
  simp

theorem addNode_nonneg_insert_getNode (ctx : Context) (m : Memo) (gv proj : List Nat)
    (ins : List MemoLogicalNodeId) (n : MemoNode) (rule : Nat) (tg : Int) (htg : ¬ tg < 0)
    (g : Group) (hg : m.groups[tg.toNat]? = some g)
    (hidx : findIdxOf n g.logicalNodes.vector = none) (id : MemoLogicalNodeId) :
    (Memo.addNode ctx m gv proj tg ins n rule).1.getNode id =
      if id = ⟨tg.toNat, g.logicalNodes.vector.length⟩ then some n else m.getNode id := by
  have hlt : tg.toNat < m.groups.length := by
    by_contra hge
    rw [List.getElem?_eq_none (Nat.le_of_not_lt hge)] at hg
    exact Option.noConfusion hg
  rw [addNode_nonneg_insert ctx m gv proj ins n rule tg htg g hg hidx]
  simp only [estimateCE_getNode]
  obtain ⟨gi, i⟩ := id
  simp only [Memo.getNode]
  by_cases hgi : gi = tg.toNat
  · subst hgi
    rw [List.getElem?_set, if_pos rfl, if_pos hlt, hg]
    simp only [OrderPreservingABTSet.at?]
    by_cases hi : i = g.logicalNodes.vector.length
    · subst hi
      rw [if_pos rfl, getElem?_concat_self]
    · have hne : (⟨tg.toNat, i⟩ : MemoLogicalNodeId) ≠
          ⟨tg.toNat, g.logicalNodes.vector.length⟩ := by
        intro hc
        injection hc with h1 h2
        exact hi h2
      rw [if_neg hne]
      rcases Nat.lt_trichotomy i g.logicalNodes.vector.length with hlt2 | heq | hgt
      · rw [List.getElem?_append, if_pos hlt2]
      · exact absurd heq hi
      · rw [List.getElem?_eq_none (by simp; omega), List.getElem?_eq_none (by omega)]
  · have hne : (⟨gi, i⟩ : MemoLogicalNodeId) ≠ ⟨tg.toNat, g.logicalNodes.vector.length⟩ := by
      intro hc
      injection hc with h1 h2
      exact hgi h1
    rw [if_neg hne, List.getElem?_set, if_neg (fun hc => hgi hc.symm)]

theorem addNode_nonneg_insert_ids (ctx : Context) (m : Memo) (gv proj : List Nat)
    (ins : List MemoLogicalNodeId) (n : MemoNode) (rule : Nat) (tg : Int) (htg : ¬ tg < 0)
    (g : Group) (hg : m.groups[tg.toNat]? = some g)
    (hidx : findIdxOf n g.logicalNodes.vector = none) :
    (Memo.addNode ctx m gv proj tg ins n rule).2.1 =
      ⟨tg.toNat, g.logicalNodes.vector.length⟩ ∧
    (Memo.addNode ctx m gv proj tg ins n rule).2.2 =
      ins ++ [⟨tg.toNat, g.logicalNodes.vector.length⟩] ∧
    (Memo.addNode ctx m gv proj tg ins n rule).1.groups.length = m.groups.length := by
  rw [addNode_nonneg_insert ctx m gv proj ins n rule tg htg g hg hidx]
  refine ⟨rfl, rfl, ?_⟩
  rw [estimateCE_groups_length]
  simp

/-- The inserted-node-id exactness of one public `addNode` call: ids of nodes
stored before the call keep their content, the group list never shrinks, and
the caller's inserted-node-id set is extended by exactly the ids newly created
during the call (by none on a duplicate hit or an invalid target, by the one
new id otherwise). -/
theorem addNode_inserted_exact (ctx : Context) (m : Memo) (gv proj : List Nat)
    (tg : Int) (ins : List MemoLogicalNodeId) (n : MemoNode) (rule : Nat) :
    (∀ id n', m.getNode id = some n' →
      (Memo.addNode ctx m gv proj tg ins n rule).1.getNode id = some n') ∧
    m.groups.length ≤ (Memo.addNode ctx m gv proj tg ins n rule).1.groups.length ∧
    ∃ δ, (Memo.addNode ctx m gv proj tg ins n rule).2.2 = ins ++ δ ∧
      ∀ id, id ∈ δ ↔ (m.getNode id = none ∧
        ((Memo.addNode ctx m gv proj tg ins n rule).1.getNode id).isSome = true) := by
  by_cases htg : tg < 0
  · rw [addNode_neg_eq ctx m gv proj ins n rule tg htg]
    have hGet := addNode_fresh_getNode ctx m gv proj ins n rule
    have hNone : m.getNode ⟨m.groups.length, 0⟩ = none := by
      rw [Memo.getNode, List.getElem?_eq_none (Nat.le_refl _)]
    refine ⟨?_, ?_, ⟨[⟨m.groups.length, 0⟩], (addNode_fresh_ids ctx m gv proj ins n rule).2, ?_⟩⟩
    · intro id n' h
      rw [hGet id]
      by_cases hid : id = ⟨m.groups.length, 0⟩
      · rw [hid, hNone] at h
        exact Option.noConfusion h
      · rw [if_neg hid]
        exact h
    · rw [addNode_fresh_groupCount]
      exact Nat.le_succ _
    · intro id
      rw [List.mem_singleton]
      constructor
      · intro hid
        rw [hid, hGet, if_pos rfl]
        exact ⟨hNone, rfl⟩
      · intro ⟨h1, h2⟩
        by_contra hid
        rw [hGet id, if_neg hid, h1] at h2
        exact Bool.noConfusion h2
  · cases hg : m.groups[tg.toNat]? with
    | none =>
      rw [addNode_nonneg_invalid ctx m gv proj ins n rule tg htg hg]
      refine ⟨fun id n' h => h, Nat.le_refl _, ⟨[], (List.append_nil ins).symm, ?_⟩⟩
      intro id
      simp only [List.not_mem_nil, false_iff]
      intro ⟨h1, h2⟩
      rw [h1] at h2
      exact Bool.noConfusion h2
    | some g =>
      cases hidx : findIdxOf n g.logicalNodes.vector with
      | some i =>
        rw [addNode_nonneg_dup ctx m gv proj ins n rule tg htg g i hg hidx]
        refine ⟨fun id n' h => h, Nat.le_refl _, ⟨[], (List.append_nil ins).symm, ?_⟩⟩
        intro id
        simp only [List.not_mem_nil, false_iff]
        intro ⟨h1, h2⟩
        rw [h1] at h2
        exact Bool.noConfusion h2
      | none =>
        have hGet := addNode_nonneg_insert_getNode ctx m gv proj ins n rule tg htg g hg hidx
        obtain ⟨hid1, hid2, hlen⟩ :=
          addNode_nonneg_insert_ids ctx m gv proj ins n rule tg htg g hg hidx
        have hNone : m.getNode ⟨tg.toNat, g.logicalNodes.vector.length⟩ = none := by
          simp only [Memo.getNode, hg, OrderPreservingABTSet.at?]
          exact List.getElem?_eq_none (Nat.le_refl _)
        refine ⟨?_, by rw [hlen], ⟨[⟨tg.toNat, g.logicalNodes.vector.length⟩], hid2, ?_⟩⟩
        · intro id n' h
          rw [hGet id]
          by_cases hid : id = ⟨tg.toNat, g.logicalNodes.vector.length⟩
          · rw [hid, hNone] at h
            exact Option.noConfusion h
          · rw [if_neg hid]
            exact h
        · intro id
          rw [List.mem_singleton]
          constructor
          · intro hid
            rw [hid, hGet, if_pos rfl]
            exact ⟨hNone, rfl⟩
          · intro ⟨h1, h2⟩
            by_contra hid
            rw [hGet id, if_neg hid, h1] at h2
            exact Bool.noConfusion h2

theorem integrateList_nil_eq (ctx : Context) (tgm : ABT → Option Nat) (rule : Nat)
    (aenwc : Bool) (m : Memo) (ins : List MemoLogicalNodeId) :
    integrateList ctx tgm rule aenwc m ins [] = (m, ins, []) := rfl

theorem integrateList_cons_eq (ctx : Context) (tgm : ABT → Option Nat) (rule : Nat)
    (aenwc : Bool) (m : Memo) (ins : List MemoLogicalNodeId) (c : ABT) (cs : List ABT) :
    integrateList ctx tgm rule aenwc m ins (c :: cs) =
      ((integrateList ctx tgm rule aenwc (integrateTree ctx tgm rule aenwc m ins c).1
          (integrateTree ctx tgm rule aenwc m ins c).2.1 cs).1,
        (integrateList ctx tgm rule aenwc (integrateTree ctx tgm rule aenwc m ins c).1
          (integrateTree ctx tgm rule aenwc m ins c).2.1 cs).2.1,
        (integrateTree ctx tgm rule aenwc m ins c).2.2.groupId ::
          (integrateList ctx tgm rule aenwc (integrateTree ctx tgm rule aenwc m ins c).1
            (integrateTree ctx tgm rule aenwc m ins c).2.1 cs).2.2) := rfl

theorem integrateTree_node_eq (ctx : Context) (tgm : ABT → Option Nat) (rule : Nat)
    (aenwc : Bool) (m : Memo) (ins : List MemoLogicalNodeId) (op : Nat) (cs : List ABT) :
    integrateTree ctx tgm rule aenwc m ins (.node op cs) =
      integrateStep ctx tgm rule aenwc (.node op cs) op
        (integrateList ctx tgm rule aenwc m ins cs) := rfl

theorem integrateTree_reuse_eq (ctx : Context) (tgm : ABT → Option Nat) (rule : Nat)
    (m : Memo) (ins : List MemoLogicalNodeId) (op : Nat) (cs : List ABT)
    (id : MemoLogicalNodeId)
    (hf : (integrateList ctx tgm rule false m ins cs).1.findNode
      (integrateList ctx tgm rule false m ins cs).2.2
      ⟨op, (integrateList ctx tgm rule false m ins cs).2.2⟩ = some id) :
    integrateTree ctx tgm rule false m ins (.node op cs) =
      ((integrateList ctx tgm rule false m ins cs).1,
        (integrateList ctx tgm rule false m ins cs).2.1, id) := by
  rw [integrateTree_node_eq]
  simp only [integrateStep, hf]

theorem integrateTree_miss_default_eq (ctx : Context) (rule : Nat) (m : Memo)
    (ins : List MemoLogicalNodeId) (op : Nat) (cs : List ABT)
    (hf : (integrateList ctx (fun _ => none) rule false m ins cs).1.findNode
      (integrateList ctx (fun _ => none) rule false m ins cs).2.2
      ⟨op, (integrateList ctx (fun _ => none) rule false m ins cs).2.2⟩ = none) :
    integrateTree ctx (fun _ => none) rule false m ins (.node op cs) =
      ((Memo.addNode ctx (integrateList ctx (fun _ => none) rule false m ins cs).1
          (integrateList ctx (fun _ => none) rule false m ins cs).2.2 [op] (-1)
          (integrateList ctx (fun _ => none) rule false m ins cs).2.1
          ⟨op, (integrateList ctx (fun _ => none) rule false m ins cs).2.2⟩ rule).1,
        (Memo.addNode ctx (integrateList ctx (fun _ => none) rule false m ins cs).1
          (integrateList ctx (fun _ => none) rule false m ins cs).2.2 [op] (-1)
          (integrateList ctx (fun _ => none) rule false m ins cs).2.1
          ⟨op, (integrateList ctx (fun _ => none) rule false m ins cs).2.2⟩ rule).2.2,
        (Memo.addNode ctx (integrateList ctx (fun _ => none) rule false m ins cs).1
          (integrateList ctx (fun _ => none) rule false m ins cs).2.2 [op] (-1)
          (integrateList ctx (fun _ => none) rule false m ins cs).2.1
          ⟨op, (integrateList ctx (fun _ => none) rule false m ins cs).2.2⟩ rule).2.1) := by
  rw [integrateTree_node_eq]
  simp only [integrateStep, hf, MemoNode.projections]

theorem integrateTree_fallthrough_ex (ctx : Context) (tgm : ABT → Option Nat) (rule : Nat)
    (aenwc : Bool) (m : Memo) (ins : List MemoLogicalNodeId) (op : Nat) (cs : List ABT)
    (hcase : (integrateList ctx tgm rule aenwc m ins cs).1.findNode
        (integrateList ctx tgm rule aenwc m ins cs).2.2
        ⟨op, (integrateList ctx tgm rule aenwc m ins cs).2.2⟩ = none ∨ aenwc = true) :
    ∃ tg : Int,
      integrateTree ctx tgm rule aenwc m ins (.node op cs) =
        ((Memo.addNode ctx (integrateList ctx tgm rule aenwc m ins cs).1
            (integrateList ctx tgm rule aenwc m ins cs).2.2 [op] tg
            (integrateList ctx tgm rule aenwc m ins cs).2.1
            ⟨op, (integrateList ctx tgm rule aenwc m ins cs).2.2⟩ rule).1,
          (Memo.addNode ctx (integrateList ctx tgm rule aenwc m ins cs).1
            (integrateList ctx tgm rule aenwc m ins cs).2.2 [op] tg
            (integrateList ctx tgm rule aenwc m ins cs).2.1
            ⟨op, (integrateList ctx tgm rule aenwc m ins cs).2.2⟩ rule).2.2,
          (Memo.addNode ctx (integrateList ctx tgm rule aenwc m ins cs).1
            (integrateList ctx tgm rule aenwc m ins cs).2.2 [op] tg
            (integrateList ctx tgm rule aenwc m ins cs).2.1
            ⟨op, (integrateList ctx tgm rule aenwc m ins cs).2.2⟩ rule).2.1) := by
  cases hf : (integrateList ctx tgm rule aenwc m ins cs).1.findNode
      (integrateList ctx tgm rule aenwc m ins cs).2.2
      ⟨op, (integrateList ctx tgm rule aenwc m ins cs).2.2⟩ with
  | some id =>
    have haen : aenwc = true := by
      rcases hcase with hc | hc
      · rw [hf] at hc
        exact Option.noConfusion hc
      · exact hc
    cases hm : tgm (ABT.node op cs) with
    | some g =>
      refine ⟨(g : Int), ?_⟩
      rw [haen]
      rw [haen] at hf
      rw [integrateTree_node_eq]
      simp only [integrateStep, hf, hm, MemoNode.projections]
    | none =>
      refine ⟨(id.groupId : Int), ?_⟩
      rw [haen]
      rw [haen] at hf
      rw [integrateTree_node_eq]
      simp only [integrateStep, hf, hm, MemoNode.projections]
  | none =>
    cases hm : tgm (ABT.node op cs) with
    | some g =>
      refine ⟨(g : Int), ?_⟩
      rw [integrateTree_node_eq]
      cases aenwc <;> simp only [integrateStep, hf, hm, MemoNode.projections]
    | none =>
      refine ⟨(-1 : Int), ?_⟩
      rw [integrateTree_node_eq]
      cases aenwc <;> simp only [integrateStep, hf, hm, MemoNode.projections]

theorem growth_trans {m1 m2 m3 : Memo} {ins1 ins2 ins3 : List MemoLogicalNodeId}
    (h12 : (∀ id n', m1.getNode id = some n' → m2.getNode id = some n') ∧
      m1.groups.length ≤ m2.groups.length ∧
      ∃ δ, ins2 = ins1 ++ δ ∧
        ∀ id, id ∈ δ ↔ (m1.getNode id = none ∧ (m2.getNode id).isSome = true))
    (h23 : (∀ id n', m2.getNode id = some n' → m3.getNode id = some n') ∧
      m2.groups.length ≤ m3.groups.length ∧
      ∃ δ, ins3 = ins2 ++ δ ∧
        ∀ id, id ∈ δ ↔ (m2.getNode id = none ∧ (m3.getNode id).isSome = true)) :
    (∀ id n', m1.getNode id = some n' → m3.getNode id = some n') ∧
    m1.groups.length ≤ m3.groups.length ∧
    ∃ δ, ins3 = ins1 ++ δ ∧
      ∀ id, id ∈ δ ↔ (m1.getNode id = none ∧ (m3.getNode id).isSome = true) := by
  obtain ⟨hp12, hl12, δ1, he1, hi1⟩ := h12
  obtain ⟨hp23, hl23, δ2, he2, hi2⟩ := h23
  refine ⟨fun id n' h => hp23 id n' (hp12 id n' h), Nat.le_trans hl12 hl23,
    ⟨δ1 ++ δ2, by rw [he2, he1, List.append_assoc], ?_⟩⟩
  intro id
  rw [List.mem_append, hi1 id, hi2 id]
  constructor
  · rintro (⟨h1, h2⟩ | ⟨h1, h2⟩)
    · refine ⟨h1, ?_⟩
      cases hm2 : m2.getNode id with
      | none => rw [hm2] at h2; exact Bool.noConfusion h2
      | some n' => rw [hp23 id n' hm2]; rfl
    · refine ⟨?_, h2⟩
      cases hm1 : m1.getNode id with
      | none => rfl
      | some n' => rw [hp12 id n' hm1] at h1; exact Option.noConfusion h1
  · rintro ⟨h1, h3⟩
    cases hm2 : m2.getNode id with
    | none => exact Or.inr ⟨rfl, h3⟩
    | some n' => exact Or.inl ⟨h1, rfl⟩

theorem growth_refl (m : Memo) (ins : List MemoLogicalNodeId) :
    (∀ id n', m.getNode id = some n' → m.getNode id = some n') ∧
    m.groups.length ≤ m.groups.length ∧
    ∃ δ, ins = ins ++ δ ∧
      ∀ id, id ∈ δ ↔ (m.getNode id = none ∧ (m.getNode id).isSome = true) := by
  refine ⟨fun _ _ h => h, Nat.le_refl _, ⟨[], (List.append_nil ins).symm, ?_⟩⟩
  intro id
  simp only [List.not_mem_nil, false_iff]
  rintro ⟨h1, h2⟩
  rw [h1] at h2
  exact Bool.noConfusion h2

theorem integrate_growth_list (ctx : Context) (tgm : ABT → Option Nat) (rule : Nat)
    (aenwc : Bool) (cs : List ABT)
    (IH : ∀ c ∈ cs, ∀ (m : Memo) (ins : List MemoLogicalNodeId),
      (∀ id n', m.getNode id = some n' →
        (integrateTree ctx tgm rule aenwc m ins c).1.getNode id = some n') ∧
      m.groups.length ≤ (integrateTree ctx tgm rule aenwc m ins c).1.groups.length ∧
      ∃ δ, (integrateTree ctx tgm rule aenwc m ins c).2.1 = ins ++ δ ∧
        ∀ id, id ∈ δ ↔ (m.getNode id = none ∧
          ((integrateTree ctx tgm rule aenwc m ins c).1.getNode id).isSome = true)) :
    ∀ (m : Memo) (ins : List MemoLogicalNodeId),
      (∀ id n', m.getNode id = some n' →
        (integrateList ctx tgm rule aenwc m ins cs).1.getNode id = some n') ∧
      m.groups.length ≤ (integrateList ctx tgm rule aenwc m ins cs).1.groups.length ∧
      ∃ δ, (integrateList ctx tgm rule aenwc m ins cs).2.1 = ins ++ δ ∧
        ∀ id, id ∈ δ ↔ (m.getNode id = none ∧
          ((integrateList ctx tgm rule aenwc m ins cs).1.getNode id).isSome = true) := by
  induction cs with
  | nil =>
    intro m ins
    rw [integrateList_nil_eq]
    exact growth_refl m ins
  | cons c cs ih =>
    intro m ins
    rw [integrateList_cons_eq]
    exact growth_trans (IH c (List.mem_cons_self c cs) m ins)
      (ih (fun c' hc' => IH c' (List.mem_cons_of_mem c hc'))
        (integrateTree ctx tgm rule aenwc m ins c).1
        (integrateTree ctx tgm rule aenwc m ins c).2.1)

theorem integrate_growth_tree (ctx : Context) (tgm : ABT → Option Nat) (rule : Nat)
    (aenwc : Bool) (t : ABT) :
    ∀ (m : Memo) (ins : List MemoLogicalNodeId),
      (∀ id n', m.getNode id = some n' →
        (integrateTree ctx tgm rule aenwc m ins t).1.getNode id = some n') ∧
      m.groups.length ≤ (integrateTree ctx tgm rule aenwc m ins t).1.groups.length ∧
      ∃ δ, (integrateTree ctx tgm rule aenwc m ins t).2.1 = ins ++ δ ∧
        ∀ id, id ∈ δ ↔ (m.getNode id = none ∧
          ((integrateTree ctx tgm rule aenwc m ins t).1.getNode id).isSome = true) := by
  induction t using ABT.strongInductionOn with
  | _ op cs IH =>
    intro m ins
    have hlist := integrate_growth_list ctx tgm rule aenwc cs IH m ins
    cases hf : (integrateList ctx tgm rule aenwc m ins cs).1.findNode
        (integrateList ctx tgm rule aenwc m ins cs).2.2
        ⟨op, (integrateList ctx tgm rule aenwc m ins cs).2.2⟩ with
    | some id =>
      cases haen : aenwc with
      | false =>
        rw [haen] at hf hlist
        rw [integrateTree_reuse_eq ctx tgm rule m ins op cs id hf]
        exact hlist
      | true =>
        rw [haen] at hf hlist
        obtain ⟨tg, heq⟩ := integrateTree_fallthrough_ex ctx tgm rule true m ins op cs
          (Or.inr rfl)
        rw [heq]
        exact growth_trans hlist
          (addNode_inserted_exact ctx (integrateList ctx tgm rule true m ins cs).1
            (integrateList ctx tgm rule true m ins cs).2.2 [op] tg
            (integrateList ctx tgm rule true m ins cs).2.1
            ⟨op, (integrateList ctx tgm rule true m ins cs).2.2⟩ rule)
    | none =>
      obtain ⟨tg, heq⟩ := integrateTree_fallthrough_ex ctx tgm rule aenwc m ins op cs
        (Or.inl hf)
      rw [heq]
      exact growth_trans hlist
        (addNode_inserted_exact ctx (integrateList ctx tgm rule aenwc m ins cs).1
          (integrateList ctx tgm rule aenwc m ins cs).2.2 [op] tg
          (integrateList ctx tgm rule aenwc m ins cs).2.1
          ⟨op, (integrateList ctx tgm rule aenwc m ins cs).2.2⟩ rule)

theorem integrate_main_list (ctx : Context) (rule : Nat) (cs : List ABT)
    (IH : ∀ c ∈ cs, ∀ (m : Memo) (ins : List MemoLogicalNodeId), Memo.WF m →
      Memo.WF (integrateTree ctx (fun _ => none) rule false m ins c).1 ∧
      Memo.Le m (integrateTree ctx (fun _ => none) rule false m ins c).1 ∧
      Resident (integrateTree ctx (fun _ => none) rule false m ins c).1 c
        (integrateTree ctx (fun _ => none) rule false m ins c).2.2) :
    ∀ (m : Memo) (ins : List MemoLogicalNodeId), Memo.WF m →
      Memo.WF (integrateList ctx (fun _ => none) rule false m ins cs).1 ∧
      Memo.Le m (integrateList ctx (fun _ => none) rule false m ins cs).1 ∧
      ResidentList (integrateList ctx (fun _ => none) rule false m ins cs).1 cs
        (integrateList ctx (fun _ => none) rule false m ins cs).2.2 := by
  induction cs with
  | nil =>
    intro m ins hwf
    rw [integrateList_nil_eq]
    exact ⟨hwf, Memo.Le.refl m, ResidentList.nil m⟩
  | cons c cs ih =>
    intro m ins hwf
    obtain ⟨hwf1, hle1, hres1⟩ := IH c (List.mem_cons_self c cs) m ins hwf
    obtain ⟨hwf2, hle2, hresl2⟩ := ih (fun c' hc' => IH c' (List.mem_cons_of_mem c hc'))
      (integrateTree ctx (fun _ => none) rule false m ins c).1
      (integrateTree ctx (fun _ => none) rule false m ins c).2.1 hwf1
    rw [integrateList_cons_eq]
    refine ⟨hwf2, Memo.Le.trans hle1 hle2, ?_⟩
    exact ResidentList.cons _ c (integrateTree ctx (fun _ => none) rule false m ins c).2.2 cs _
      (Resident_mono hwf1 hle2 c _ hres1) hresl2

theorem integrate_main_tree (ctx : Context) (rule : Nat) (t : ABT) :
    ∀ (m : Memo) (ins : List MemoLogicalNodeId), Memo.WF m →
      Memo.WF (integrateTree ctx (fun _ => none) rule false m ins t).1 ∧
      Memo.Le m (integrateTree ctx (fun _ => none) rule false m ins t).1 ∧
      Resident (integrateTree ctx (fun _ => none) rule false m ins t).1 t
        (integrateTree ctx (fun _ => none) rule false m ins t).2.2 := by
  induction t using ABT.strongInductionOn with
  | _ op cs IH =>
    intro m ins hwf
    obtain ⟨hwfL, hleL, hresL⟩ := integrate_main_list ctx rule cs IH m ins hwf
    cases hf : (integrateList ctx (fun _ => none) rule false m ins cs).1.findNode
        (integrateList ctx (fun _ => none) rule false m ins cs).2.2
        ⟨op, (integrateList ctx (fun _ => none) rule false m ins cs).2.2⟩ with
    | some id =>
      rw [integrateTree_reuse_eq ctx (fun _ => none) rule m ins op cs id hf]
      exact ⟨hwfL, hleL, Resident.node _ op cs _ id hresL hf⟩
    | none =>
      rw [integrateTree_miss_default_eq ctx rule m ins op cs hf]
      obtain ⟨hwfS, hleS, hfindS, hidS, hinsS⟩ :=
        addNode_fresh_step ctx (integrateList ctx (fun _ => none) rule false m ins cs).1 op
          (integrateList ctx (fun _ => none) rule false m ins cs).2.2
          (integrateList ctx (fun _ => none) rule false m ins cs).2.1 rule hwfL hf
      refine ⟨hwfS, Memo.Le.trans hleL hleS, ?_⟩
      rw [hidS]
      exact Resident.node _ op cs (integrateList ctx (fun _ => none) rule false m ins cs).2.2
        ⟨(integrateList ctx (fun _ => none) rule false m ins cs).1.groups.length, 0⟩
        (ResidentList_mono hwfL hleS cs _ hresL) hfindS

theorem integrate_resident_list (ctx : Context) (tgm : ABT → Option Nat) (rule : Nat)
    (cs : List ABT)
    (IH : ∀ c ∈ cs, ∀ (m : Memo) (ins : List MemoLogicalNodeId) (id : MemoLogicalNodeId),
      Resident m c id → integrateTree ctx tgm rule false m ins c = (m, ins, id)) :
    ∀ (m : Memo) (ins : List MemoLogicalNodeId) (gids : List Nat),
      ResidentList m cs gids → integrateList ctx tgm rule false m ins cs = (m, ins, gids) := by
  induction cs with
  | nil =>
    intro m ins gids h
    cases h
    exact integrateList_nil_eq ctx tgm rule false m ins
  | cons c cs ih =>
    intro m ins gg h
    cases h with
    | cons _ cid _ gids hr hrl =>
      rw [integrateList_cons_eq, IH c (List.mem_cons_self c cs) m ins cid hr]
      simp only
      rw [ih (fun c' hc' => IH c' (List.mem_cons_of_mem c hc')) m ins gids hrl]

theorem integrate_resident_tree (ctx : Context) (tgm : ABT → Option Nat) (rule : Nat)
    (t : ABT) :
    ∀ (m : Memo) (ins : List MemoLogicalNodeId) (id : MemoLogicalNodeId),
      Resident m t id → integrateTree ctx tgm rule false m ins t = (m, ins, id) := by
  induction t using ABT.strongInductionOn with
  | _ op cs IH =>
    intro m ins id h
    cases h with
    | node _ _ gids _ hlist hfind =>
      have hl := integrate_resident_list ctx tgm rule cs IH m ins gids hlist
      have hf : (integrateList ctx tgm rule false m ins cs).1.findNode
          (integrateList ctx tgm rule false m ins cs).2.2
          ⟨op, (integrateList ctx tgm rule false m ins cs).2.2⟩ = some id := by
        rw [hl]
        exact hfind
      rw [integrateTree_reuse_eq ctx tgm rule m ins op cs id hf, hl]

theorem wf_empty : Memo.WF Memo.empty := by
  constructor
  · intro key id h
    simp [Memo.entryList, Memo.empty, assocLookup] at h
  · intro key
    simp only [Memo.entryList, Memo.empty, assocLookup, Option.getD_none]
    exact List.Pairwise.nil
  · intro key id
    simp [Memo.entryList, Memo.empty, assocLookup]
  · simp [Memo.empty]
  · simp [Memo.empty]

theorem wf_bump {m : Memo} (st : Stats) (h : Memo.WF m) : Memo.WF { m with stats := st } :=
  ⟨h.entriesValid, h.entriesPairwise, h.fwdInvAgree, h.fwdKeysNodup, h.invKeysNodup⟩

theorem bump_le (m : Memo) (st : Stats) : Memo.Le m { m with stats := st } :=
  ⟨fun _ _ h => h, fun key => ⟨[], (List.append_nil _).symm⟩, Nat.le_refl _⟩

/-- C1: dedup idempotence of `Memo::integrate`.  Starting from any
well-formed memo, integrating the same logical expression tree a second time
(identical structure, hence identical resolved children — this also covers a
structurally equal tree built from separately integrated but structurally
equal subtrees, since structural equality of trees is equality in the value
model) yields the same node id, hence the same root group id, the group and
logical node counts do not change on the second call, and the second call
creates no new node ids. -/
theorem integrate_dedup_idempotent (ctx : Context) (m m1 m2 : Memo) (t : ABT)
    (ins1 ins2 ins1' ins2' : List MemoLogicalNodeId) (rule1 rule2 : Nat)
    (id1 id2 : MemoLogicalNodeId) (hwf : Memo.WF m)
    (h1 : Memo.integrate ctx m t (fun _ => none) ins1 rule1 false = (m1, ins1', id1))
    (h2 : Memo.integrate ctx m1 t (fun _ => none) ins2 rule2 false = (m2, ins2', id2)) :
    id2 = id1 ∧ id2.groupId = id1.groupId ∧
    m2.getGroupCount = m1.getGroupCount ∧
    m2.getLogicalNodeCount = m1.getLogicalNodeCount ∧
    ins2' = ins2 := by
  rw [Memo.integrate] at h1 h2
  obtain ⟨hwf1, _hle1, hres1⟩ := integrate_main_tree ctx rule1 t
    { m with stats := { m.stats with numIntegrations := m.stats.numIntegrations + 1 } }
    ins1 (wf_bump _ hwf)
  rw [h1] at hwf1 hres1
  have hres1B : Resident
      { m1 with stats := { m1.stats with numIntegrations := m1.stats.numIntegrations + 1 } }
      t id1 :=
    Resident_mono hwf1 (bump_le m1 _) t id1 hres1
  have h3 := integrate_resident_tree ctx (fun _ => none) rule2 t
    { m1 with stats := { m1.stats with numIntegrations := m1.stats.numIntegrations + 1 } }
    ins2 id1 hres1B
  rw [h3] at h2
  injection h2 with h2a h2b
  injection h2b with h2b h2c
  refine ⟨h2c.symm, by rw [h2c], ?_, ?_, h2b.symm⟩
  · rw [← h2a]
    rfl
  · rw [← h2a]
    rfl

/-- Witness for C1: integrating the two-child tree A(x, y) twice into the
empty memo returns the same root node id both times. -/
theorem integrate_dedup_idempotent_witness :
    (Memo.integrate ⟨fun l => l.length⟩
        (Memo.integrate ⟨fun l => l.length⟩ Memo.empty
          (ABT.node 1 [ABT.node 0 [], ABT.node 2 []]) (fun _ => none) [] 5 false).1
        (ABT.node 1 [ABT.node 0 [], ABT.node 2 []]) (fun _ => none) [] 7 false).2.2 =
      (Memo.integrate ⟨fun l => l.length⟩ Memo.empty
        (ABT.node 1 [ABT.node 0 [], ABT.node 2 []]) (fun _ => none) [] 5 false).2.2 :=
  (integrate_dedup_idempotent ⟨fun l => l.length⟩ Memo.empty _ _
    (ABT.node 1 [ABT.node 0 [], ABT.node 2 []]) [] [] _ _ 5 7 _ _ wf_empty rfl rfl).1

/-- C7: frame effect of `clearLogicalNodes` and group id stability.  For a
valid group id, `clearLogicalNodes` empties that group's logical node set
while leaving the group's id, its physical winners, its binder and its derived
properties unchanged, and no other group is affected; group ids assigned so
far stay valid and keep their stored node content across any further
`integrate` call; only `clear()` resets the memo (after it the group count is
zero, so previously assigned ids are gone). -/
theorem clearLogicalNodes_frame_effect (m : Memo) (gid : Nat) (g : Group)
    (hg : m.groups[gid]? = some g) :
    ((m.clearLogicalNodes gid).groups[gid]?).map (fun g' => g'.logicalNodes.size) = some 0 ∧
    ((m.clearLogicalNodes gid).groups[gid]?).map Group.physicalNodes = some g.physicalNodes ∧
    ((m.clearLogicalNodes gid).groups[gid]?).map Group.binder = some g.binder ∧
    ((m.clearLogicalNodes gid).groups[gid]?).map Group.logicalProperties =
      some g.logicalProperties ∧
    (∀ gid', gid' ≠ gid → (m.clearLogicalNodes gid).groups[gid']? = m.groups[gid']?) ∧
    (m.clearLogicalNodes gid).getGroupCount = m.getGroupCount ∧
    (∀ (ctx : Context) (t : ABT) (tgm : ABT → Option Nat)
      (ins : List MemoLogicalNodeId) (rule : Nat) (aenwc : Bool),
      m.getGroupCount ≤ (Memo.integrate ctx m t tgm ins rule aenwc).1.getGroupCount ∧
      (∀ id n, m.getNode id = some n →
        (Memo.integrate ctx m t tgm ins rule aenwc).1.getNode id = some n)) ∧
    (Memo.clear m).getGroupCount = 0 := by
  have hlt : gid < m.groups.length := by
    by_contra hge
    rw [List.getElem?_eq_none (Nat.le_of_not_lt hge)] at hg
    exact Option.noConfusion hg
  have hclear : m.clearLogicalNodes gid = m.updateGroup gid
      { g with logicalNodes := ⟨[]⟩, rules := [], logicalRewriteQueue := [] } := by
    simp only [Memo.clearLogicalNodes, hg]
  have hself : (m.clearLogicalNodes gid).groups[gid]? =
      some { g with logicalNodes := ⟨[]⟩, rules := [], logicalRewriteQueue := [] } := by
    rw [hclear]
    simp only [Memo.updateGroup]
    rw [List.getElem?_set, if_pos rfl, if_pos hlt]
  refine ⟨by rw [hself]; rfl, by rw [hself]; rfl, by rw [hself]; rfl, by rw [hself]; rfl,
    ?_, ?_, ?_, rfl⟩
  · intro gid' hne
    rw [hclear]
    simp only [Memo.updateGroup]
    rw [List.getElem?_set, if_neg (fun hc => hne hc.symm)]
  · rw [hclear]
    simp [Memo.updateGroup, Memo.getGroupCount]
  · intro ctx t tgm ins rule aenwc
    rw [Memo.integrate]
    obtain ⟨hpres, hlen, _⟩ := integrate_growth_tree ctx tgm rule aenwc t
      { m with stats := { m.stats with numIntegrations := m.stats.numIntegrations + 1 } } ins
    exact ⟨hlen, hpres⟩

/-- Witness for C7: clearing the logical nodes of the single group created by
one leaf integration leaves an empty logical node set at the same group id. -/
theorem clearLogicalNodes_frame_effect_witness :
    (((Memo.integrate ⟨fun l => l.length⟩ Memo.empty (ABT.node 0 []) (fun _ => none)
        [] 0 false).1.clearLogicalNodes 0).groups[0]?).map
      (fun g' => g'.logicalNodes.size) = some 0 :=
  (clearLogicalNodes_frame_effect
    (Memo.integrate ⟨fun l => l.length⟩ Memo.empty (ABT.node 0 []) (fun _ => none)
      [] 0 false).1 0 _ rfl).1

/-- C6 counterexample: integrating A = node 10 over child x (group 0) and
then B = node 11 over the same child — all with default targets and
`addExistingNodeWithNewChild` false — records two distinct node ids under the
same input group vector `[0]`, so "at most one node id per fixed input
vector" fails as stated. -/
theorem inputGroups_two_nodes_same_inputs :
    (Memo.integrate ⟨fun l => l.length⟩
        (Memo.integrate ⟨fun l => l.length⟩ Memo.empty (ABT.node 10 [ABT.node 0 []])
          (fun _ => none) [] 0 false).1
        (ABT.node 11 [ABT.node 0 []]) (fun _ => none) [] 0 false).1.entryList [0] =
      [⟨1, 0⟩, ⟨2, 0⟩] := by
  rfl

/-- C6 amended: after a default-target integration into a well-formed memo
the auxiliary maps stay well-formed; for a fixed input group vector at most
one node id is recorded per structurally distinct node content (absent the
`addExistingNodeWithNewChild` override); the input-groups map and its inverse
agree entry for entry; and every recorded node id is recorded under exactly
one input vector. -/
theorem inputMaps_consistency_preserved (ctx : Context) (m : Memo) (t : ABT)
    (ins : List MemoLogicalNodeId) (rule : Nat) (hwf : Memo.WF m) :
    Memo.WF (Memo.integrate ctx m t (fun _ => none) ins rule false).1 ∧
    (∀ key a b, a ∈ (Memo.integrate ctx m t (fun _ => none) ins rule false).1.entryList key →
      b ∈ (Memo.integrate ctx m t (fun _ => none) ins rule false).1.entryList key →
      (Memo.integrate ctx m t (fun _ => none) ins rule false).1.getNode a =
        (Memo.integrate ctx m t (fun _ => none) ins rule false).1.getNode b →
      a = b) ∧
    (∀ key id, id ∈ (Memo.integrate ctx m t (fun _ => none) ins rule false).1.entryList key ↔
      assocLookup (Memo.integrate ctx m t (fun _ => none) ins rule
        false).1.nodeIdToInputGroupsMap id = some key) ∧
    (∀ key1 key2 id,
      id ∈ (Memo.integrate ctx m t (fun _ => none) ins rule false).1.entryList key1 →
      id ∈ (Memo.integrate ctx m t (fun _ => none) ins rule false).1.entryList key2 →
      key1 = key2) := by
  have h := integrate_main_tree ctx rule t
    { m with stats := { m.stats with numIntegrations := m.stats.numIntegrations + 1 } }
    ins (wf_bump _ hwf)
  have hwf' : Memo.WF (Memo.integrate ctx m t (fun _ => none) ins rule false).1 := h.1
  refine ⟨hwf', ?_, hwf'.fwdInvAgree, ?_⟩
  · intro key a b ha hb heq
    by_contra hne
    have hsym : Symmetric (fun a b : MemoLogicalNodeId =>
        (Memo.integrate ctx m t (fun _ => none) ins rule false).1.getNode a ≠
          (Memo.integrate ctx m t (fun _ => none) ins rule false).1.getNode b) := by
      intro x y hxy hc
      exact hxy hc.symm
    exact (hwf'.entriesPairwise key).forall hsym ha hb hne heq
  · intro key1 key2 id h1 h2
    obtain ⟨n1, hn1, hc1⟩ := hwf'.entriesValid key1 id h1
    obtain ⟨n2, hn2, hc2⟩ := hwf'.entriesValid key2 id h2
    rw [hn1] at hn2
    injection hn2 with hn2
    rw [← hc1, ← hc2, hn2]

/-- Witness for C6's amended statement: the maps of the memo produced by one
leaf integration into the empty memo are well-formed. -/
theorem inputMaps_consistency_preserved_witness :
    Memo.WF (Memo.integrate ⟨fun l => l.length⟩ Memo.empty (ABT.node 0 [])
      (fun _ => none) [] 0 false).1 :=
  (inputMaps_consistency_preserved ⟨fun l => l.length⟩ Memo.empty (ABT.node 0 [])
    [] 0 wf_empty).1

/-- C10: inserted-node-id exactness.  Every `Memo::integrate` call extends
the caller-supplied inserted-node-id set by exactly the ids of nodes newly
created during the call (an id is appended iff it referred to no node before
the call and refers to one after it); and a `Memo::addNode` call that hits a
structural duplicate in its target group leaves both the memo and the
inserted-node-id set completely unchanged. -/
theorem insertedNodeIds_exactness :
    (∀ (ctx : Context) (tgm : ABT → Option Nat) (rule : Nat) (aenwc : Bool) (m : Memo)
      (ins : List MemoLogicalNodeId) (t : ABT),
      ∃ δ, (Memo.integrate ctx m t tgm ins rule aenwc).2.1 = ins ++ δ ∧
        ∀ id, id ∈ δ ↔ (m.getNode id = none ∧
          ((Memo.integrate ctx m t tgm ins rule aenwc).1.getNode id).isSome = true)) ∧
    (∀ (ctx : Context) (m : Memo) (gv proj : List Nat) (gid : Nat) (g : Group)
      (ins : List MemoLogicalNodeId) (n : MemoNode) (rule : Nat) (i : Nat),
      m.groups[gid]? = some g → findIdxOf n g.logicalNodes.vector = some i →
      Memo.addNode ctx m gv proj (gid : Int) ins n rule = (m, ⟨gid, i⟩, ins)) := by
  constructor
  · intro ctx tgm rule aenwc m ins t
    rw [Memo.integrate]
    obtain ⟨_, _, δ, he, hi⟩ := integrate_growth_tree ctx tgm rule aenwc t
      { m with stats := { m.stats with numIntegrations := m.stats.numIntegrations + 1 } } ins
    exact ⟨δ, he, hi⟩
  · intro ctx m gv proj gid g ins n rule i hg hidx
    have hg' : m.groups[((gid : Int)).toNat]? = some g := by
      rw [Int.toNat_natCast]
      exact hg
    have hidx' : findIdxOf n g.logicalNodes.vector = some i := hidx
    have := addNode_nonneg_dup ctx m gv proj ins n rule (gid : Int) (by omega) g i hg' hidx'
    rw [this, Int.toNat_natCast]

/-- Witness for C10: re-adding the node stored in group 0 after one leaf
integration is a pure duplicate hit — memo and inserted-id set unchanged. -/
theorem insertedNodeIds_exactness_witness :
    Memo.addNode ⟨fun l => l.length⟩
        (Memo.integrate ⟨fun l => l.length⟩ Memo.empty (ABT.node 0 []) (fun _ => none)
          [] 0 false).1 [] [0] ((0 : Nat) : Int) [] ⟨0, []⟩ 3 =
      ((Memo.integrate ⟨fun l => l.length⟩ Memo.empty (ABT.node 0 []) (fun _ => none)
        [] 0 false).1, ⟨0, 0⟩, []) :=
  insertedNodeIds_exactness.2 ⟨fun l => l.length⟩
    (Memo.integrate ⟨fun l => l.length⟩ Memo.empty (ABT.node 0 []) (fun _ => none)
      [] 0 false).1 [] [0] 0 _ [] ⟨0, []⟩ 3 0 rfl rfl

end Cascades
